import Mathlib

set_option maxRecDepth 8000

/-!
Verification of the Metropolis puzzle programs (CDouglasHoward13/Metropolis).

This file gives a shallow embedding, in Lean 4, of the algorithmic cores of
the repository's C programs:

* the Metropolis acceptance rule common to the solvers
  (`TwoNotTouch`/`KenKen`/`SudokuSolver` `Metropolis` functions);
* the reversible move generators and their undo operations
  (`KenKen::Proposal`/`ChangeBack`, the Two Not Touch column restore);
* the TSP segment-reversal proposal filter (`Proposal` in the drilling-route
  program);
* the Sudoku solver's `Conflicts`/`Energy` cost model;
* the Sudoku puzzle maker's clue-reduction phase (`Flip`, `Metropolis2`)
  and its exact backtracking uniqueness oracle
  (`GettingStarted`, `Advance`, `Retreat`, `Consistent`, `Unique`),
  modelled as an explicit state machine driven by a fuel-indexed runner.

Theorems named `claim_*` settle the statements of the specification against
these embeddings.
-/

namespace Metro

/-! ## The common Metropolis acceptance rule

All Metropolis loops in the repository share the acceptance structure

    AcceptTransition = 0;
    if (deltaE <= 0)      AcceptTransition = 1;
    else if (T > 0)       if (MTUniform() <= P[deltaE]) AcceptTransition = 1;

with `P` the precomputed acceptance table.  We model the uniform variate `u`
and the table `table` as parameters. -/

def AcceptTransition (deltaE : ℤ) (T : ℚ) (u : ℚ) (table : ℤ → ℚ) : Bool :=
  if deltaE ≤ 0 then true
  else if 0 < T then decide (u ≤ table deltaE)
  else false

/-- Pointwise update of a two-argument grid function, modelling the C
assignment `f[a][b] = v`. -/
def update2 (f : ℕ → ℕ → ℕ) (a b v : ℕ) : ℕ → ℕ → ℕ :=
  fun x y => if x = a ∧ y = b then v else f x y

theorem update2_same (f : ℕ → ℕ → ℕ) (a b v : ℕ) : update2 f a b v a b = v := by
  simp [update2]

theorem update2_other (f : ℕ → ℕ → ℕ) (a b v x y : ℕ) (h : ¬(x = a ∧ y = b)) :
    update2 f a b v x y = f x y := by
  simp [update2, h]

end Metro

namespace KenKen

/-! ## KenKen: pairwise digit swap and its exact undo

`Proposal()` swaps the digits at sites `I0` and `I1` of the configuration
array `x1`; `ChangeBack()` performs the identical swap again.  We model the
configuration as a function from site indices to digits. -/

def swapSites (x1 : ℕ → ℕ) (I0 I1 : ℕ) : ℕ → ℕ :=
  fun k => if k = I0 then x1 I1 else if k = I1 then x1 I0 else x1 k

/-- `Proposal()`: swap digits at sites `I0` and `I1`. -/
def Proposal (x1 : ℕ → ℕ) (I0 I1 : ℕ) : ℕ → ℕ := swapSites x1 I0 I1

/-- `ChangeBack()`: reverse the change made in `Proposal()` (same swap). -/
def ChangeBack (x1 : ℕ → ℕ) (I0 I1 : ℕ) : ℕ → ℕ := swapSites x1 I0 I1

theorem swapSites_involutive (x1 : ℕ → ℕ) (I0 I1 : ℕ) :
    swapSites (swapSites x1 I0 I1) I0 I1 = x1 := by
  funext k
  by_cases h0 : k = I0 <;> by_cases h1 : k = I1 <;>
    simp [swapSites, h0, h1] <;> subst_vars <;> simp_all [swapSites]

end KenKen

namespace TwoNotTouch

/-! ## Two Not Touch: single-star column move and its undo

`Proposal()` records `C = col[R][S]` and assigns a new column to `col[R][S]`;
on rejection the `Metropolis()` loop restores `col[R][S] = C`. -/

/-- The proposal's effect: `col[R][S] = newc` (with `C = col R S` saved). -/
def Proposal (col : ℕ → ℕ → ℕ) (R S newc : ℕ) : ℕ → ℕ → ℕ :=
  Metro.update2 col R S newc

/-- The rejection branch `col[R][S] = C` restoring the saved column. -/
def ChangeBack (col : ℕ → ℕ → ℕ) (R S C : ℕ) : ℕ → ℕ → ℕ :=
  Metro.update2 col R S C

theorem changeBack_proposal (col : ℕ → ℕ → ℕ) (R S newc : ℕ) :
    ChangeBack (Proposal col R S newc) R S (col R S) = col := by
  funext x y
  by_cases hx : x = R ∧ y = S
  · obtain ⟨hx1, hx2⟩ := hx; subst hx1; subst hx2
    simp [ChangeBack, Proposal, Metro.update2]
  · simp [ChangeBack, Proposal, Metro.update2, hx]

/-! ### The Two Not Touch energy and the single-move delta bound

`Energy()` sums, over the ten columns and regions, the absolute deviations of
the star counts from 2, plus one penalty per touching pair of stars (same
row, or adjacent rows with columns differing by at most one).  A proposal
moves one star within its row, so a single move changes the energy by a
bounded amount. -/

def colcount (col : ℕ → ℕ → ℕ) (c : ℕ) : ℕ :=
  ∑ r in Finset.Icc 1 10, ∑ s in Finset.Icc 1 2, if col r s = c then 1 else 0

def regcount (col reg : ℕ → ℕ → ℕ) (g : ℕ) : ℕ :=
  ∑ r in Finset.Icc 1 10, ∑ s in Finset.Icc 1 2,
    if reg r (col r s) = g then 1 else 0

def rowTouch (col : ℕ → ℕ → ℕ) (r : ℕ) : ℤ :=
  if |(col r 1 : ℤ) - (col r 2 : ℤ)| = 1 then 1 else 0

def adjTouch (col : ℕ → ℕ → ℕ) (r : ℕ) : ℤ :=
  (if |(col r 1 : ℤ) - (col (r + 1) 1 : ℤ)| ≤ 1 then 1 else 0)
  + (if |(col r 1 : ℤ) - (col (r + 1) 2 : ℤ)| ≤ 1 then 1 else 0)
  + (if |(col r 2 : ℤ) - (col (r + 1) 1 : ℤ)| ≤ 1 then 1 else 0)
  + (if |(col r 2 : ℤ) - (col (r + 1) 2 : ℤ)| ≤ 1 then 1 else 0)

def Energy (col reg : ℕ → ℕ → ℕ) : ℤ :=
  (∑ c in Finset.Icc 1 10,
    (|(regcount col reg c : ℤ) - 2| + |(colcount col c : ℤ) - 2|))
  + (∑ r in Finset.Icc 1 10, rowTouch col r)
  + (∑ r in Finset.Icc 1 9, adjTouch col r)

theorem rowTouch_bounds (col : ℕ → ℕ → ℕ) (r : ℕ) :
    0 ≤ rowTouch col r ∧ rowTouch col r ≤ 1 := by
  unfold rowTouch; split_ifs <;> norm_num

theorem adjTouch_bounds (col : ℕ → ℕ → ℕ) (r : ℕ) :
    0 ≤ adjTouch col r ∧ adjTouch col r ≤ 4 := by
  unfold adjTouch; split_ifs <;> norm_num

theorem update_eq_off_row (col : ℕ → ℕ → ℕ) (R S newc r s : ℕ) (h : r ≠ R) :
    Metro.update2 col R S newc r s = col r s :=
  Metro.update2_other col R S newc r s (fun hc => h hc.1)

theorem colcount_update (col : ℕ → ℕ → ℕ) (R S newc : ℕ)
    (hR : R ∈ Finset.Icc 1 10) (hS : S ∈ Finset.Icc 1 2) (c : ℕ) :
    (colcount (Metro.update2 col R S newc) c : ℤ)
      = (colcount col c : ℤ) + (if newc = c then 1 else 0)
        - (if col R S = c then 1 else 0) := by
  unfold colcount
  push_cast
  rw [← Finset.add_sum_erase _ _ hR, ← Finset.add_sum_erase _ _ hR]
  rw [← Finset.add_sum_erase _ _ hS, ← Finset.add_sum_erase _ _ hS]
  have h1 : Metro.update2 col R S newc R S = newc := Metro.update2_same _ _ _ _
  have h2 : ∀ s ∈ (Finset.Icc 1 2).erase S,
      Metro.update2 col R S newc R s = col R s := fun s hs =>
    Metro.update2_other col R S newc R s
      (fun hc => (Finset.ne_of_mem_erase hs) hc.2)
  have h3 : ∀ r ∈ (Finset.Icc 1 10).erase R, ∀ s,
      Metro.update2 col R S newc r s = col r s := fun r hr s =>
    update_eq_off_row col R S newc r s (Finset.ne_of_mem_erase hr)
  rw [h1]
  have e2 : ∑ s in (Finset.Icc 1 2).erase S,
      (if Metro.update2 col R S newc R s = c then (1 : ℤ) else 0)
      = ∑ s in (Finset.Icc 1 2).erase S, (if col R s = c then (1 : ℤ) else 0) :=
    Finset.sum_congr rfl fun s hs => by rw [h2 s hs]
  have e3 : ∑ r in (Finset.Icc 1 10).erase R, ∑ s in Finset.Icc 1 2,
      (if Metro.update2 col R S newc r s = c then (1 : ℤ) else 0)
      = ∑ r in (Finset.Icc 1 10).erase R, ∑ s in Finset.Icc 1 2,
        (if col r s = c then (1 : ℤ) else 0) :=
    Finset.sum_congr rfl fun r hr => Finset.sum_congr rfl fun s _ => by
      rw [h3 r hr s]
  rw [e2, e3]
  ring

theorem regcount_update (col reg : ℕ → ℕ → ℕ) (R S newc : ℕ)
    (hR : R ∈ Finset.Icc 1 10) (hS : S ∈ Finset.Icc 1 2) (g : ℕ) :
    (regcount (Metro.update2 col R S newc) reg g : ℤ)
      = (regcount col reg g : ℤ) + (if reg R newc = g then 1 else 0)
        - (if reg R (col R S) = g then 1 else 0) := by
  unfold regcount
  push_cast
  rw [← Finset.add_sum_erase _ _ hR, ← Finset.add_sum_erase _ _ hR]
  rw [← Finset.add_sum_erase _ _ hS, ← Finset.add_sum_erase _ _ hS]
  have h1 : Metro.update2 col R S newc R S = newc := Metro.update2_same _ _ _ _
  have h2 : ∀ s ∈ (Finset.Icc 1 2).erase S,
      Metro.update2 col R S newc R s = col R s := fun s hs =>
    Metro.update2_other col R S newc R s
      (fun hc => (Finset.ne_of_mem_erase hs) hc.2)
  have h3 : ∀ r ∈ (Finset.Icc 1 10).erase R, ∀ s,
      Metro.update2 col R S newc r s = col r s := fun r hr s =>
    update_eq_off_row col R S newc r s (Finset.ne_of_mem_erase hr)
  rw [h1]
  have e2 : ∑ s in (Finset.Icc 1 2).erase S,
      (if reg R (Metro.update2 col R S newc R s) = g then (1 : ℤ) else 0)
      = ∑ s in (Finset.Icc 1 2).erase S,
        (if reg R (col R s) = g then (1 : ℤ) else 0) :=
    Finset.sum_congr rfl fun s hs => by rw [h2 s hs]
  have e3 : ∑ r in (Finset.Icc 1 10).erase R, ∑ s in Finset.Icc 1 2,
      (if reg r (Metro.update2 col R S newc r s) = g then (1 : ℤ) else 0)
      = ∑ r in (Finset.Icc 1 10).erase R, ∑ s in Finset.Icc 1 2,
        (if reg r (col r s) = g then (1 : ℤ) else 0) :=
    Finset.sum_congr rfl fun r hr => Finset.sum_congr rfl fun s _ => by
      rw [h3 r hr s]
  rw [e2, e3]
  ring

theorem ite_sum_le_one (s : Finset ℕ) (a : ℕ) :
    ∑ c in s, (if a = c then (1 : ℤ) else 0) ≤ 1 := by
  rw [Finset.sum_ite_eq]
  split_ifs <;> norm_num

theorem count_deviation_bound (s : Finset ℕ) (cnt cnt' : ℕ → ℤ) (a b : ℕ)
    (hkey : ∀ c ∈ s, cnt' c
      = cnt c + (if a = c then 1 else 0) - (if b = c then 1 else 0)) :
    ∑ c in s, |cnt' c - 2| ≤ (∑ c in s, |cnt c - 2|) + 2 := by
  have h1 : ∀ c ∈ s, |cnt' c - 2| ≤ |cnt c - 2|
      + ((if a = c then (1 : ℤ) else 0) + (if b = c then (1 : ℤ) else 0)) := by
    intro c hc
    rw [hkey c hc]
    have heq : cnt c + (if a = c then (1 : ℤ) else 0)
        - (if b = c then (1 : ℤ) else 0) - 2
        = (cnt c - 2) + ((if a = c then (1 : ℤ) else 0)
            - (if b = c then (1 : ℤ) else 0)) := by ring
    rw [heq]
    have habs := abs_add (cnt c - 2)
      ((if a = c then (1 : ℤ) else 0) - (if b = c then (1 : ℤ) else 0))
    have hsmall : |(if a = c then (1 : ℤ) else 0) - (if b = c then (1 : ℤ) else 0)|
        ≤ (if a = c then (1 : ℤ) else 0) + (if b = c then (1 : ℤ) else 0) := by
      split_ifs <;> norm_num
    linarith
  have h2 := Finset.sum_le_sum h1
  rw [Finset.sum_add_distrib, Finset.sum_add_distrib] at h2
  have h3 := ite_sum_le_one s a
  have h4 := ite_sum_le_one s b
  linarith

theorem rowTouch_congr (col : ℕ → ℕ → ℕ) (R S newc r : ℕ) (h : r ≠ R) :
    rowTouch (Metro.update2 col R S newc) r = rowTouch col r := by
  unfold rowTouch
  rw [update_eq_off_row col R S newc r 1 h, update_eq_off_row col R S newc r 2 h]

theorem adjTouch_congr (col : ℕ → ℕ → ℕ) (R S newc r : ℕ)
    (h1 : r ≠ R) (h2 : r + 1 ≠ R) :
    adjTouch (Metro.update2 col R S newc) r = adjTouch col r := by
  unfold adjTouch
  rw [update_eq_off_row col R S newc r 1 h1, update_eq_off_row col R S newc r 2 h1,
      update_eq_off_row col R S newc (r + 1) 1 h2,
      update_eq_off_row col R S newc (r + 1) 2 h2]

theorem rowPart_bound (col : ℕ → ℕ → ℕ) (R S newc : ℕ)
    (hR : R ∈ Finset.Icc 1 10) :
    ∑ r in Finset.Icc 1 10, rowTouch (Metro.update2 col R S newc) r
      ≤ (∑ r in Finset.Icc 1 10, rowTouch col r) + 1 := by
  rw [← Finset.add_sum_erase _ _ hR, ← Finset.add_sum_erase _ _ hR]
  have hsum : ∑ r in (Finset.Icc 1 10).erase R,
      rowTouch (Metro.update2 col R S newc) r
      = ∑ r in (Finset.Icc 1 10).erase R, rowTouch col r :=
    Finset.sum_congr rfl fun r hr =>
      rowTouch_congr col R S newc r (Finset.ne_of_mem_erase hr)
  rw [hsum]
  have b1 := rowTouch_bounds (Metro.update2 col R S newc) R
  have b2 := rowTouch_bounds col R
  linarith

theorem adjPart_bound (col : ℕ → ℕ → ℕ) (R S newc : ℕ) :
    ∑ r in Finset.Icc 1 9, adjTouch (Metro.update2 col R S newc) r
      ≤ (∑ r in Finset.Icc 1 9, adjTouch col r) + 8 := by
  have h1 : ∀ r ∈ Finset.Icc 1 9,
      adjTouch (Metro.update2 col R S newc) r ≤ adjTouch col r
        + ((if r = R - 1 then (4 : ℤ) else 0) + (if r = R then (4 : ℤ) else 0)) := by
    intro r _
    by_cases hhit : r = R ∨ r + 1 = R
    · have b1 := adjTouch_bounds (Metro.update2 col R S newc) r
      have b2 := adjTouch_bounds col r
      rcases hhit with h | h
      · rw [if_pos h]
        have : (0 : ℤ) ≤ if r = R - 1 then (4 : ℤ) else 0 := by
          split_ifs <;> norm_num
        linarith
      · have hr1 : r = R - 1 := by omega
        rw [if_pos hr1]
        have : (0 : ℤ) ≤ if r = R then (4 : ℤ) else 0 := by
          split_ifs <;> norm_num
        linarith
    · push_neg at hhit
      rw [adjTouch_congr col R S newc r hhit.1 hhit.2]
      have h3 : (0 : ℤ) ≤ if r = R - 1 then (4 : ℤ) else 0 := by
        split_ifs <;> norm_num
      have h4 : (0 : ℤ) ≤ if r = R then (4 : ℤ) else 0 := by
        split_ifs <;> norm_num
      linarith
  have h2 := Finset.sum_le_sum h1
  rw [Finset.sum_add_distrib, Finset.sum_add_distrib] at h2
  have h3 : ∑ r in Finset.Icc 1 9, (if r = R - 1 then (4 : ℤ) else 0) ≤ 4 := by
    rw [Finset.sum_ite_eq']
    split_ifs <;> norm_num
  have h4 : ∑ r in Finset.Icc 1 9, (if r = R then (4 : ℤ) else 0) ≤ 4 := by
    rw [Finset.sum_ite_eq']
    split_ifs <;> norm_num
  linarith

/-- A single Two Not Touch proposal (moving one star within its row) changes
the energy by at most 13, so the table read `P[deltaE]` (only performed when
`deltaE > 0`) always lands inside the precomputed index range `1..24`. -/
theorem energy_delta_le (col reg : ℕ → ℕ → ℕ) (R S newc : ℕ)
    (hR : R ∈ Finset.Icc 1 10) (hS : S ∈ Finset.Icc 1 2) :
    Energy (Metro.update2 col R S newc) reg - Energy col reg ≤ 13 := by
  unfold Energy
  rw [Finset.sum_add_distrib, Finset.sum_add_distrib]
  have hreg := count_deviation_bound (Finset.Icc 1 10)
    (fun g => (regcount col reg g : ℤ))
    (fun g => (regcount (Metro.update2 col R S newc) reg g : ℤ))
    (reg R newc) (reg R (col R S))
    (fun c _ => regcount_update col reg R S newc hR hS c)
  have hcol := count_deviation_bound (Finset.Icc 1 10)
    (fun c => (colcount col c : ℤ))
    (fun c => (colcount (Metro.update2 col R S newc) c : ℤ))
    newc (col R S)
    (fun c _ => colcount_update col R S newc hR hS c)
  have hrow := rowPart_bound col R S newc hR
  have hadj := adjPart_bound col R S newc
  linarith

end TwoNotTouch

namespace TSP

/-! ## TSP segment reversal proposal

`Proposal()` draws `i0, j0` uniformly from `{2,...,K}`, sorts them so that
`i0 ≤ j0`, and accepts the pair iff `0 < j0 - i0 < K - 2` (retrying
otherwise). -/

/-- The sorting step: switch `i0` and `j0`, if necessary, so that `i0 ≤ j0`. -/
def sortPair (i0 j0 : ℕ) : ℕ × ℕ := if j0 < i0 then (j0, i0) else (i0, j0)

/-- The accept/reject test of `Proposal()`: with `k = j0 - i0` after sorting,
the pair is kept iff `0 < k && k < K-2`. -/
def proposalAccept (K i j : ℕ) : Bool :=
  let p := sortPair i j
  decide (0 < p.2 - p.1 ∧ p.2 - p.1 < K - 2)

end TSP

namespace SudokuSolver

/-! ## Sudoku solver: `Conflicts` and `Energy`

The configuration `x` assigns a digit to each cell of the 9x9 grid (rows and
columns `1..9`), `clue` flags the clue cells (nonzero = clue).
`Conflicts(r0,c0,d)` counts the row, column and 3x3-block conflicts of cell
`(r0,c0)` if it held digit `d`, weighting a conflict `5` when either cell
involved is a clue and `1` otherwise.  `Energy()` totals `Conflicts` over all
cells and halves the result (each conflicting pair is counted twice). -/

def wt (clue : ℕ → ℕ → ℕ) (a b r c : ℕ) : ℕ :=
  if clue a b ≠ 0 ∨ clue r c ≠ 0 then 5 else 1

def Conflicts (x clue : ℕ → ℕ → ℕ) (r0 c0 d : ℕ) : ℕ :=
  (∑ k in Finset.Icc 1 9, if k ≠ c0 ∧ x r0 k = d then wt clue r0 c0 r0 k else 0)
  + (∑ k in Finset.Icc 1 9, if k ≠ r0 ∧ x k c0 = d then wt clue r0 c0 k c0 else 0)
  + (∑ p in Finset.Icc (1 + 3 * ((r0 - 1) / 3)) (3 + 3 * ((r0 - 1) / 3)) ×ˢ
        Finset.Icc (1 + 3 * ((c0 - 1) / 3)) (3 + 3 * ((c0 - 1) / 3)),
      if p.1 ≠ r0 ∧ p.2 ≠ c0 ∧ x p.1 p.2 = d then wt clue r0 c0 p.1 p.2 else 0)

def Energy (x clue : ℕ → ℕ → ℕ) : ℕ :=
  (∑ i in Finset.Icc 1 9, ∑ j in Finset.Icc 1 9,
    Conflicts x clue i j (x i j)) / 2

/-! To reason about `Energy` we rewrite `Conflicts` as a single sum over the
whole grid: cell `q` conflicts with `(a,b)` when it is a different cell
sharing the row, the column, or the 3x3 block, and holds digit `d`. -/

def cells : Finset (ℕ × ℕ) := Finset.Icc 1 9 ×ˢ Finset.Icc 1 9

def confTermD (x clue : ℕ → ℕ → ℕ) (a b d r c : ℕ) : ℕ :=
  if (¬(r = a ∧ c = b) ∧
      (r = a ∨ c = b ∨ ((r - 1) / 3 = (a - 1) / 3 ∧ (c - 1) / 3 = (b - 1) / 3)))
     ∧ x r c = d
  then wt clue a b r c else 0

theorem wt_symm (clue : ℕ → ℕ → ℕ) (a b r c : ℕ) :
    wt clue a b r c = wt clue r c a b := by
  unfold wt
  by_cases h : clue a b ≠ 0 ∨ clue r c ≠ 0
  · rw [if_pos h, if_pos (Or.symm h)]
  · rw [if_neg h, if_neg (fun hc => h (Or.symm hc))]

theorem conflicts_eq_sum (x clue : ℕ → ℕ → ℕ) (a b d : ℕ)
    (ha : a ∈ Finset.Icc 1 9) (hb : b ∈ Finset.Icc 1 9) :
    Conflicts x clue a b d = ∑ q in cells, confTermD x clue a b d q.1 q.2 := by
  rw [Finset.mem_Icc] at ha hb
  have hsplit : ∀ r c : ℕ, confTermD x clue a b d r c
      = ((if (r = a ∧ ¬(c = b)) ∧ x r c = d then wt clue a b r c else 0)
        + (if (¬(r = a) ∧ c = b) ∧ x r c = d then wt clue a b r c else 0))
        + (if ((r - 1) / 3 = (a - 1) / 3 ∧ (c - 1) / 3 = (b - 1) / 3
                ∧ ¬(r = a) ∧ ¬(c = b)) ∧ x r c = d
           then wt clue a b r c else 0) := by
    intro r c
    unfold confTermD
    by_cases hx : x r c = d
    · simp only [hx, and_true]
      split_ifs <;> omega
    · simp [hx]
  unfold cells
  rw [Finset.sum_product]
  simp only [hsplit]
  simp only [Finset.sum_add_distrib]
  have erow : (∑ r in Finset.Icc 1 9, ∑ c in Finset.Icc 1 9,
      if (r = a ∧ ¬(c = b)) ∧ x r c = d then wt clue a b r c else 0)
      = ∑ k in Finset.Icc 1 9, if k ≠ b ∧ x a k = d then wt clue a b a k else 0 := by
    rw [Finset.sum_eq_single_of_mem a (Finset.mem_Icc.mpr ⟨ha.1, ha.2⟩)]
    · exact Finset.sum_congr rfl fun k _ => by
        by_cases hk : k = b <;> by_cases hx : x a k = d <;> simp [hk, hx]
    · intro r _ hr
      exact Finset.sum_eq_zero fun c _ => by simp [hr]
  have ecol : (∑ r in Finset.Icc 1 9, ∑ c in Finset.Icc 1 9,
      if (¬(r = a) ∧ c = b) ∧ x r c = d then wt clue a b r c else 0)
      = ∑ k in Finset.Icc 1 9, if k ≠ a ∧ x k b = d then wt clue a b k b else 0 := by
    refine Finset.sum_congr rfl fun r _ => ?_
    rw [Finset.sum_eq_single_of_mem b (Finset.mem_Icc.mpr ⟨hb.1, hb.2⟩)]
    · by_cases hr : r = a <;> by_cases hx : x r b = d <;> simp [hr, hx]
    · intro c _ hc
      simp [hc]
  have eblk : (∑ r in Finset.Icc 1 9, ∑ c in Finset.Icc 1 9,
      if ((r - 1) / 3 = (a - 1) / 3 ∧ (c - 1) / 3 = (b - 1) / 3
            ∧ ¬(r = a) ∧ ¬(c = b)) ∧ x r c = d
        then wt clue a b r c else 0)
      = ∑ p in Finset.Icc (1 + 3 * ((a - 1) / 3)) (3 + 3 * ((a - 1) / 3)) ×ˢ
            Finset.Icc (1 + 3 * ((b - 1) / 3)) (3 + 3 * ((b - 1) / 3)),
          if p.1 ≠ a ∧ p.2 ≠ b ∧ x p.1 p.2 = d then wt clue a b p.1 p.2 else 0 := by
    rw [← Finset.sum_product']
    have hsub : Finset.Icc (1 + 3 * ((a - 1) / 3)) (3 + 3 * ((a - 1) / 3)) ×ˢ
        Finset.Icc (1 + 3 * ((b - 1) / 3)) (3 + 3 * ((b - 1) / 3)) ⊆
        Finset.Icc 1 9 ×ˢ Finset.Icc 1 9 := by
      intro p hp
      rw [Finset.mem_product, Finset.mem_Icc, Finset.mem_Icc] at hp
      rw [Finset.mem_product, Finset.mem_Icc, Finset.mem_Icc]
      omega
    have hzero : ∀ p ∈ Finset.Icc 1 9 ×ˢ Finset.Icc 1 9,
        p ∉ Finset.Icc (1 + 3 * ((a - 1) / 3)) (3 + 3 * ((a - 1) / 3)) ×ˢ
          Finset.Icc (1 + 3 * ((b - 1) / 3)) (3 + 3 * ((b - 1) / 3)) →
        (if ((p.1 - 1) / 3 = (a - 1) / 3 ∧ (p.2 - 1) / 3 = (b - 1) / 3
              ∧ ¬(p.1 = a) ∧ ¬(p.2 = b)) ∧ x p.1 p.2 = d
         then wt clue a b p.1 p.2 else 0) = 0 := by
      intro p hp hnp
      rw [Finset.mem_product, Finset.mem_Icc, Finset.mem_Icc] at hp
      rw [Finset.mem_product, Finset.mem_Icc, Finset.mem_Icc] at hnp
      have hc : ¬((p.1 - 1) / 3 = (a - 1) / 3 ∧ (p.2 - 1) / 3 = (b - 1) / 3) := by
        omega
      rcases Decidable.not_and_iff_or_not.mp hc with h1 | h1 <;> simp [h1]
    rw [← Finset.sum_subset hsub hzero]
    refine Finset.sum_congr rfl fun p hp => ?_
    rw [Finset.mem_product, Finset.mem_Icc, Finset.mem_Icc] at hp
    have h1 : (p.1 - 1) / 3 = (a - 1) / 3 := by omega
    have h2 : (p.2 - 1) / 3 = (b - 1) / 3 := by omega
    by_cases hr : p.1 = a <;> by_cases hc : p.2 = b <;>
      by_cases hx : x p.1 p.2 = d <;> simp [h1, h2, hr, hc, hx]
  rw [erow, ecol, eblk]
  rfl

/-- The pairwise conflict matrix underlying the energy: entry `(p, q)` is the
weighted conflict between cells `p` and `q` in configuration `x`. -/
def Mterm (x clue : ℕ → ℕ → ℕ) (p q : ℕ × ℕ) : ℕ :=
  confTermD x clue p.1 p.2 (x p.1 p.2) q.1 q.2

def Ssum (x clue : ℕ → ℕ → ℕ) : ℕ :=
  ∑ p in cells, ∑ q in cells, Mterm x clue p q

def key (p : ℕ × ℕ) : ℕ := 10 * p.1 + p.2

def Tsum (x clue : ℕ → ℕ → ℕ) : ℕ :=
  ∑ pr in (cells ×ˢ cells).filter (fun pr => key pr.1 < key pr.2),
    Mterm x clue pr.1 pr.2

theorem sum_conflicts_eq_S (x clue : ℕ → ℕ → ℕ) :
    (∑ i in Finset.Icc 1 9, ∑ j in Finset.Icc 1 9,
      Conflicts x clue i j (x i j)) = Ssum x clue := by
  unfold Ssum
  rw [← Finset.sum_product'
    (f := fun i j => Conflicts x clue i j (x i j))]
  refine Finset.sum_congr rfl fun p hp => ?_
  have hp' := Finset.mem_product.mp hp
  exact conflicts_eq_sum x clue p.1 p.2 (x p.1 p.2) hp'.1 hp'.2

theorem Mterm_symm (x clue : ℕ → ℕ → ℕ) (p q : ℕ × ℕ) :
    Mterm x clue p q = Mterm x clue q p := by
  unfold Mterm confTermD
  rw [wt_symm]
  refine if_congr ?_ rfl rfl
  constructor <;>
    · rintro ⟨⟨h1, h2⟩, h3⟩
      refine ⟨⟨fun hc => h1 ⟨hc.1.symm, hc.2.symm⟩, ?_⟩, h3.symm⟩
      rcases h2 with h2 | h2 | h2
      · exact Or.inl h2.symm
      · exact Or.inr (Or.inl h2.symm)
      · exact Or.inr (Or.inr ⟨h2.1.symm, h2.2.symm⟩)

theorem Mterm_diag (x clue : ℕ → ℕ → ℕ) (p : ℕ × ℕ) :
    Mterm x clue p p = 0 := by
  simp [Mterm, confTermD]

theorem key_inj (p q : ℕ × ℕ) (hp : p ∈ cells) (hq : q ∈ cells)
    (h : key p = key q) : p = q := by
  unfold cells at hp hq
  rw [Finset.mem_product, Finset.mem_Icc, Finset.mem_Icc] at hp hq
  unfold key at h
  have h1 : p.1 = q.1 := by omega
  have h2 : p.2 = q.2 := by omega
  exact Prod.ext h1 h2

theorem S_eq_two_T (x clue : ℕ → ℕ → ℕ) : Ssum x clue = 2 * Tsum x clue := by
  unfold Ssum Tsum
  rw [← Finset.sum_product' (f := fun p q => Mterm x clue p q)]
  rw [← Finset.sum_filter_add_sum_filter_not (cells ×ˢ cells)
        (fun pr => key pr.1 < key pr.2) (fun pr => Mterm x clue pr.1 pr.2)]
  have hsplit2 := Finset.sum_filter_add_sum_filter_not
      ((cells ×ˢ cells).filter (fun pr => ¬ key pr.1 < key pr.2))
      (fun pr => key pr.2 < key pr.1) (fun pr => Mterm x clue pr.1 pr.2)
  have hdiag : ∑ pr in ((cells ×ˢ cells).filter
        (fun pr => ¬ key pr.1 < key pr.2)).filter
        (fun pr => ¬ key pr.2 < key pr.1), Mterm x clue pr.1 pr.2 = 0 := by
    refine Finset.sum_eq_zero fun pr hpr => ?_
    rw [Finset.mem_filter, Finset.mem_filter, Finset.mem_product] at hpr
    obtain ⟨⟨⟨hp1, hp2⟩, hlt⟩, hgt⟩ := hpr
    have hk : key pr.1 = key pr.2 := by omega
    have hpq := key_inj pr.1 pr.2 hp1 hp2 hk
    rw [hpq]
    exact Mterm_diag x clue pr.2
  have hswap : ∑ pr in ((cells ×ˢ cells).filter
        (fun pr => ¬ key pr.1 < key pr.2)).filter
        (fun pr => key pr.2 < key pr.1), Mterm x clue pr.1 pr.2
      = ∑ pr in (cells ×ˢ cells).filter (fun pr => key pr.1 < key pr.2),
          Mterm x clue pr.1 pr.2 := by
    refine Finset.sum_nbij' (i := Prod.swap) (j := Prod.swap) ?_ ?_ ?_ ?_ ?_
    · intro a ha
      rw [Finset.mem_filter, Finset.mem_filter, Finset.mem_product] at ha
      rw [Finset.mem_filter, Finset.mem_product]
      simp only [Prod.fst_swap, Prod.snd_swap]
      exact ⟨⟨ha.1.1.2, ha.1.1.1⟩, ha.2⟩
    · intro a ha
      rw [Finset.mem_filter, Finset.mem_product] at ha
      rw [Finset.mem_filter, Finset.mem_filter, Finset.mem_product]
      simp only [Prod.fst_swap, Prod.snd_swap]
      have hlt := ha.2
      exact ⟨⟨⟨ha.1.2, ha.1.1⟩, by omega⟩, ha.2⟩
    · intro a _; exact Prod.swap_swap a
    · intro a _; exact Prod.swap_swap a
    · intro a _
      simp only [Prod.fst_swap, Prod.snd_swap]
      exact Mterm_symm x clue a.1 a.2
  omega

theorem energy_eq_T (x clue : ℕ → ℕ → ℕ) : Energy x clue = Tsum x clue := by
  unfold Energy
  rw [sum_conflicts_eq_S, S_eq_two_T]
  omega

/-! Changing the digit of the single cell `(a0,b0)` to `d0` changes the
conflict matrix only in row and column `(a0,b0)`; both change by the same
amount, `Conflicts(a0,b0,d0) - Conflicts(a0,b0,old)`. -/

theorem confTermD_update_center (x clue : ℕ → ℕ → ℕ) (a0 b0 d0 : ℕ)
    (q : ℕ × ℕ) :
    confTermD (Metro.update2 x a0 b0 d0) clue a0 b0
      (Metro.update2 x a0 b0 d0 a0 b0) q.1 q.2
    = confTermD x clue a0 b0 d0 q.1 q.2 := by
  rw [Metro.update2_same]
  unfold confTermD
  by_cases hq : q.1 = a0 ∧ q.2 = b0
  · obtain ⟨h1, h2⟩ := hq
    simp [h1, h2]
  · rw [Metro.update2_other x a0 b0 d0 q.1 q.2 hq]

theorem Mterm_update_outer (x clue : ℕ → ℕ → ℕ) (a0 b0 d0 : ℕ) (p : ℕ × ℕ)
    (hp : ¬(p.1 = a0 ∧ p.2 = b0)) :
    Mterm (Metro.update2 x a0 b0 d0) clue p (a0, b0)
    = confTermD x clue a0 b0 d0 p.1 p.2 := by
  show confTermD (Metro.update2 x a0 b0 d0) clue p.1 p.2
      (Metro.update2 x a0 b0 d0 p.1 p.2) a0 b0 = _
  rw [Metro.update2_other x a0 b0 d0 p.1 p.2 hp]
  unfold confTermD
  rw [Metro.update2_same x a0 b0 d0, wt_symm]
  refine if_congr ?_ rfl rfl
  constructor <;>
    · rintro ⟨⟨h1, h2⟩, h3⟩
      refine ⟨⟨fun hc => h1 ⟨hc.1.symm, hc.2.symm⟩, ?_⟩, h3.symm⟩
      rcases h2 with h | h | h
      · exact Or.inl h.symm
      · exact Or.inr (Or.inl h.symm)
      · exact Or.inr (Or.inr ⟨h.1.symm, h.2.symm⟩)

theorem sum_Mterm_center (x clue : ℕ → ℕ → ℕ) (a0 b0 d0 : ℕ)
    (ha : a0 ∈ Finset.Icc 1 9) (hb : b0 ∈ Finset.Icc 1 9) :
    ∑ q in cells, Mterm (Metro.update2 x a0 b0 d0) clue (a0, b0) q
      = Conflicts x clue a0 b0 d0 := by
  rw [conflicts_eq_sum x clue a0 b0 d0 ha hb]
  refine Finset.sum_congr rfl fun q _ => ?_
  exact confTermD_update_center x clue a0 b0 d0 q

theorem sum_Mterm_center_old (x clue : ℕ → ℕ → ℕ) (a0 b0 : ℕ)
    (ha : a0 ∈ Finset.Icc 1 9) (hb : b0 ∈ Finset.Icc 1 9) :
    ∑ q in cells, Mterm x clue (a0, b0) q
      = Conflicts x clue a0 b0 (x a0 b0) := by
  rw [conflicts_eq_sum x clue a0 b0 (x a0 b0) ha hb]
  rfl

theorem confTermD_self_zero (x clue : ℕ → ℕ → ℕ) (a0 b0 d0 : ℕ) :
    confTermD x clue a0 b0 d0 a0 b0 = 0 := by
  simp [confTermD]

theorem sum_Mterm_column_new (x clue : ℕ → ℕ → ℕ) (a0 b0 d0 : ℕ)
    (ha : a0 ∈ Finset.Icc 1 9) (hb : b0 ∈ Finset.Icc 1 9) :
    ∑ p in cells.erase (a0, b0),
        Mterm (Metro.update2 x a0 b0 d0) clue p (a0, b0)
      = Conflicts x clue a0 b0 d0 := by
  have hmem : (a0, b0) ∈ cells := Finset.mem_product.mpr ⟨ha, hb⟩
  rw [conflicts_eq_sum x clue a0 b0 d0 ha hb,
      ← Finset.add_sum_erase cells
        (fun q => confTermD x clue a0 b0 d0 q.1 q.2) hmem,
      confTermD_self_zero, zero_add]
  refine Finset.sum_congr rfl fun p hp => ?_
  have hp' : ¬(p.1 = a0 ∧ p.2 = b0) := fun hc =>
    (Finset.ne_of_mem_erase hp) (Prod.ext hc.1 hc.2)
  exact Mterm_update_outer x clue a0 b0 d0 p hp'

theorem sum_Mterm_column_old (x clue : ℕ → ℕ → ℕ) (a0 b0 : ℕ)
    (ha : a0 ∈ Finset.Icc 1 9) (hb : b0 ∈ Finset.Icc 1 9) :
    ∑ p in cells.erase (a0, b0), Mterm x clue p (a0, b0)
      = Conflicts x clue a0 b0 (x a0 b0) := by
  have hmem : (a0, b0) ∈ cells := Finset.mem_product.mpr ⟨ha, hb⟩
  rw [conflicts_eq_sum x clue a0 b0 (x a0 b0) ha hb,
      ← Finset.add_sum_erase cells
        (fun q => confTermD x clue a0 b0 (x a0 b0) q.1 q.2) hmem,
      confTermD_self_zero, zero_add]
  refine Finset.sum_congr rfl fun p hp => ?_
  exact Mterm_symm x clue p (a0, b0)

theorem sum_Mterm_core (x clue : ℕ → ℕ → ℕ) (a0 b0 d0 : ℕ) :
    ∑ p in cells.erase (a0, b0), ∑ q in cells.erase (a0, b0),
        Mterm (Metro.update2 x a0 b0 d0) clue p q
      = ∑ p in cells.erase (a0, b0), ∑ q in cells.erase (a0, b0),
          Mterm x clue p q := by
  refine Finset.sum_congr rfl fun p hp => Finset.sum_congr rfl fun q hq => ?_
  have hp' : ¬(p.1 = a0 ∧ p.2 = b0) := fun hc =>
    (Finset.ne_of_mem_erase hp) (Prod.ext hc.1 hc.2)
  have hq' : ¬(q.1 = a0 ∧ q.2 = b0) := fun hc =>
    (Finset.ne_of_mem_erase hq) (Prod.ext hc.1 hc.2)
  unfold Mterm confTermD
  rw [Metro.update2_other x a0 b0 d0 p.1 p.2 hp',
      Metro.update2_other x a0 b0 d0 q.1 q.2 hq']

theorem Ssum_decomp (y clue : ℕ → ℕ → ℕ) (a0 b0 : ℕ)
    (hmem : (a0, b0) ∈ cells) :
    Ssum y clue = (∑ q in cells, Mterm y clue (a0, b0) q)
      + ((∑ p in cells.erase (a0, b0), Mterm y clue p (a0, b0))
        + ∑ p in cells.erase (a0, b0), ∑ q in cells.erase (a0, b0),
            Mterm y clue p q) := by
  unfold Ssum
  rw [← Finset.add_sum_erase cells (fun p => ∑ q in cells, Mterm y clue p q)
        hmem]
  congr 1
  rw [← Finset.sum_add_distrib]
  refine Finset.sum_congr rfl fun p hp => ?_
  rw [← Finset.add_sum_erase cells (fun q => Mterm y clue p q) hmem]

theorem S_delta (x clue : ℕ → ℕ → ℕ) (a0 b0 d0 : ℕ)
    (ha : a0 ∈ Finset.Icc 1 9) (hb : b0 ∈ Finset.Icc 1 9) :
    Ssum (Metro.update2 x a0 b0 d0) clue
        + 2 * Conflicts x clue a0 b0 (x a0 b0)
      = Ssum x clue + 2 * Conflicts x clue a0 b0 d0 := by
  have hmem : (a0, b0) ∈ cells := Finset.mem_product.mpr ⟨ha, hb⟩
  rw [Ssum_decomp (Metro.update2 x a0 b0 d0) clue a0 b0 hmem,
      Ssum_decomp x clue a0 b0 hmem,
      sum_Mterm_center x clue a0 b0 d0 ha hb,
      sum_Mterm_center_old x clue a0 b0 ha hb,
      sum_Mterm_column_new x clue a0 b0 d0 ha hb,
      sum_Mterm_column_old x clue a0 b0 ha hb,
      sum_Mterm_core x clue a0 b0 d0]
  ring

end SudokuSolver

namespace MagicSquare

/-! ## Magic-square generator: guarded acceptance-table lookup

In the magic-square `Metropolis()` the acceptance probability is
`p = (DeltaE < 100 ? P[DeltaE] : 0.0)`, with `P[1..100]` precomputed. -/

def acceptProb (P : ℤ → ℚ) (DeltaE : ℤ) : ℚ :=
  if DeltaE < 100 then P DeltaE else 0

theorem acceptProb_large (P : ℤ → ℚ) (DeltaE : ℤ) (h : 100 ≤ DeltaE) :
    acceptProb P DeltaE = 0 := by
  simp [acceptProb]; omega

/-- `acceptProb` never reads the table outside the indices `1..99`: its value
only depends on the table entries at those indices. -/
theorem acceptProb_reads_in_domain (P Q : ℤ → ℚ) (DeltaE : ℤ)
    (hpos : 0 < DeltaE) (h : ∀ k : ℤ, 1 ≤ k → k < 100 → P k = Q k) :
    acceptProb P DeltaE = acceptProb Q DeltaE := by
  unfold acceptProb
  by_cases hd : DeltaE < 100
  · simp only [hd, if_true]
    exact h DeltaE (by omega) hd
  · simp [hd]

end MagicSquare

namespace Maker

/-! ## Sudoku puzzle maker: the clue-flip move of `Metropolis2`

The clue grid `C` holds `1` at clue sites and `0` elsewhere.  `Flip(x0,y0)`
toggles `C[x0][y0]` and (unless `(x0,y0) = (5,5)`) its point reflection
`C[10-x0][10-y0]`, returning the change in the number of clues. -/

/-- The toggle `C[a][b] = 1 - C[a][b]` of a single site. -/
def flipOnce (C : ℕ → ℕ → ℕ) (a b : ℕ) : ℕ → ℕ → ℕ :=
  Metro.update2 C a b (1 - C a b)

def Flip (C : ℕ → ℕ → ℕ) (x0 y0 : ℕ) : (ℕ → ℕ → ℕ) × ℤ :=
  let C1 := flipOnce C x0 y0
  let both55 : Bool := x0 == 5 && y0 == 5
  let C2 := if both55 then C1 else flipOnce C1 (10 - x0) (10 - y0)
  (C2, (if C2 x0 y0 = 1 then 1 else -1) * (if both55 then 1 else 2))

theorem flipOnce_same (C : ℕ → ℕ → ℕ) (a b : ℕ) :
    flipOnce C a b a b = 1 - C a b := by
  simp [flipOnce, Metro.update2]

theorem flipOnce_other (C : ℕ → ℕ → ℕ) (a b x y : ℕ) (h : ¬(x = a ∧ y = b)) :
    flipOnce C a b x y = C x y := by
  simp [flipOnce, Metro.update2, h]

theorem flip_fst (C : ℕ → ℕ → ℕ) (x0 y0 : ℕ) :
    (Flip C x0 y0).1 = if (x0 == 5 && y0 == 5) then flipOnce C x0 y0
      else flipOnce (flipOnce C x0 y0) (10 - x0) (10 - y0) := rfl

/-- The initial configuration of `Metropolis2`: every site is a clue. -/
def allClues : ℕ → ℕ → ℕ := fun _ _ => 1

/-- Iterating `Flip` over a list of chosen sites. -/
def FlipSeq (C : ℕ → ℕ → ℕ) (ms : List (ℕ × ℕ)) : ℕ → ℕ → ℕ :=
  ms.foldl (fun acc p => (Flip acc p.1 p.2).1) C

/-- The clue grid is symmetric under 180-degree rotation about site (5,5). -/
def SymmetricClues (C : ℕ → ℕ → ℕ) : Prop :=
  ∀ x ∈ Finset.Icc 1 9, ∀ y ∈ Finset.Icc 1 9, C x y = C (10 - x) (10 - y)

instance (C : ℕ → ℕ → ℕ) : Decidable (SymmetricClues C) := by
  unfold SymmetricClues; infer_instance

theorem flip_grid_eq (C : ℕ → ℕ → ℕ) (x0 y0 : ℕ) (h : ¬(x0 = 5 ∧ y0 = 5)) :
    (Flip C x0 y0).1 = fun a b =>
      if a = x0 ∧ b = y0 then 1 - C x0 y0
      else if a = 10 - x0 ∧ b = 10 - y0 then 1 - C (10 - x0) (10 - y0)
      else C a b := by
  have h55 : (x0 == 5 && y0 == 5) = false := by
    rcases Decidable.not_and_iff_or_not.mp h with h1 | h1 <;> simp [h1]
  have hne : ¬(10 - x0 = x0 ∧ 10 - y0 = y0) := by
    rcases Decidable.not_and_iff_or_not.mp h with h1 | h1
    · exact fun hc => h1 (by omega)
    · exact fun hc => h1 (by omega)
  funext a b
  rw [flip_fst, h55]
  simp only [Bool.false_eq_true, if_false]
  by_cases ha : a = x0 ∧ b = y0
  · obtain ⟨ha1, ha2⟩ := ha
    have hab : ¬(a = 10 - x0 ∧ b = 10 - y0) := by
      intro hc; exact hne ⟨by omega, by omega⟩
    rw [flipOnce_other _ _ _ _ _ hab, ha1, ha2, flipOnce_same]
    simp
  · by_cases hb : a = 10 - x0 ∧ b = 10 - y0
    · obtain ⟨hb1, hb2⟩ := hb; subst hb1; subst hb2
      rw [flipOnce_same, flipOnce_other _ _ _ _ _ hne]
      simp [ha, hne]
    · rw [flipOnce_other _ _ _ _ _ hb, flipOnce_other _ _ _ _ _ ha]
      simp [ha, hb]

theorem flip_center_eq (C : ℕ → ℕ → ℕ) :
    (Flip C 5 5).1 = flipOnce C 5 5 := by
  rw [flip_fst]; simp

theorem flip_toggle_main (C : ℕ → ℕ → ℕ) (x0 y0 : ℕ) :
    (Flip C x0 y0).1 x0 y0 = 1 - C x0 y0 := by
  by_cases hcen : x0 = 5 ∧ y0 = 5
  · obtain ⟨h1, h2⟩ := hcen; subst h1; subst h2
    rw [flip_center_eq, flipOnce_same]
  · rw [flip_grid_eq C x0 y0 hcen]
    simp

theorem flip_toggle_reflection (C : ℕ → ℕ → ℕ) (x0 y0 : ℕ)
    (hcen : ¬(x0 = 5 ∧ y0 = 5)) :
    (Flip C x0 y0).1 (10 - x0) (10 - y0) = 1 - C (10 - x0) (10 - y0) := by
  rw [flip_grid_eq C x0 y0 hcen]
  have hne : ¬(10 - x0 = x0 ∧ 10 - y0 = y0) := by
    rcases Decidable.not_and_iff_or_not.mp hcen with h1 | h1
    · exact fun hc => h1 (by omega)
    · exact fun hc => h1 (by omega)
  simp [hne]

theorem flip_symmetric (C : ℕ → ℕ → ℕ) (x0 y0 : ℕ)
    (hx0 : x0 ∈ Finset.Icc 1 9) (hy0 : y0 ∈ Finset.Icc 1 9)
    (hC : SymmetricClues C) : SymmetricClues (Flip C x0 y0).1 := by
  rw [Finset.mem_Icc] at hx0 hy0
  have hCf : ∀ x y, 1 ≤ x → x ≤ 9 → 1 ≤ y → y ≤ 9 →
      C x y = C (10 - x) (10 - y) := by
    intro x y h1 h2 h3 h4
    exact hC x (Finset.mem_Icc.mpr ⟨h1, h2⟩) y (Finset.mem_Icc.mpr ⟨h3, h4⟩)
  by_cases hcen : x0 = 5 ∧ y0 = 5
  · obtain ⟨h1, h2⟩ := hcen; subst h1; subst h2
    rw [flip_center_eq]
    intro x hx y hy
    rw [Finset.mem_Icc] at hx hy
    by_cases hxy : x = 5 ∧ y = 5
    · obtain ⟨h1, h2⟩ := hxy; subst h1; subst h2
      norm_num
    · have hxy' : ¬(10 - x = 5 ∧ 10 - y = 5) := by omega
      rw [flipOnce_other _ _ _ _ _ hxy, flipOnce_other _ _ _ _ _ hxy']
      exact hCf x y hx.1 hx.2 hy.1 hy.2
  · rw [flip_grid_eq C x0 y0 hcen]
    intro x hx y hy
    rw [Finset.mem_Icc] at hx hy
    simp only
    split_ifs <;>
      first
        | rfl
        | (exfalso; omega)
        | rw [hCf x0 y0 hx0.1 hx0.2 hy0.1 hy0.2]
        | exact hCf x y hx.1 hx.2 hy.1 hy.2

theorem allClues_symmetric : SymmetricClues allClues := by
  intro x _ y _; rfl

/-! ## The uniqueness oracle: iterative Advance/Retreat backtracking

The state of the search (`Unique()`/`GettingStarted()`/`Advance()`/
`Retreat()`/`Consistent()` in the puzzle maker) consists of the trail arrays
`r`, `c`, `m`, `n`, the assigned-cell indicator `Gtilde`, the trail length
`istar` and the clue count `Csize`.  Trail entry `i` sits at cell
`(r i, c i)`; its candidate digits are `n i 1 .. n i (original count)` in
increasing order, the current one being `n i (m i)`. -/

structure MState where
  istar : ℕ
  Csize : ℕ
  r : ℕ → ℕ
  c : ℕ → ℕ
  m : ℕ → ℕ
  n : ℕ → ℕ → ℕ
  Gtilde : ℕ → ℕ → ℕ

/-- Single-site update of a one-argument array. -/
def upd1 (f : ℕ → ℕ) (a v : ℕ) : ℕ → ℕ := fun x => if x = a then v else f x

theorem upd1_same (f : ℕ → ℕ) (a v : ℕ) : upd1 f a v a = v := by
  unfold upd1; rw [if_pos rfl]

theorem upd1_other (f : ℕ → ℕ) (a v x : ℕ) (h : ¬x = a) : upd1 f a v x = f x := by
  unfold upd1; rw [if_neg h]

/-- Replace row `i` of the two-dimensional array `n`. -/
def updRow (n : ℕ → ℕ → ℕ) (i : ℕ) (row : ℕ → ℕ) : ℕ → ℕ → ℕ :=
  fun j => if j = i then row else n j

theorem updRow_same (n : ℕ → ℕ → ℕ) (i : ℕ) (row : ℕ → ℕ) :
    updRow n i row i = row := by
  unfold updRow; rw [if_pos rfl]

theorem updRow_other (n : ℕ → ℕ → ℕ) (i : ℕ) (row : ℕ → ℕ) (j : ℕ)
    (h : ¬j = i) : updRow n i row j = n j := by
  unfold updRow; rw [if_neg h]

/-- `(x,y)`'s 3x3 block number, `(x-1)/3 + 3*((y-1)/3)`. -/
def blockOf (x y : ℕ) : ℕ := (x - 1) / 3 + 3 * ((y - 1) / 3)

/-- `Consistent(x,y,v,k)`: digit `v` at cell `(x,y)` conflicts with no trail
entry `1..k` (an entry conflicts when it holds digit `v` and shares the row,
the column, or the 3x3 block). -/
def ConsistentF (st : MState) (x y v k : ℕ) : Bool :=
  (List.range' 1 k).all fun i =>
    !(v == st.n i (st.m i) &&
      (st.r i == x || st.c i == y ||
        blockOf (st.r i) (st.c i) == blockOf x y))

/-- The count `m0` computed by `Advance()` for a free cell: how many of the
digits `1..9` are consistent with the current trail. -/
def countConsistent (st : MState) (x y : ℕ) : ℕ :=
  ((List.range' 1 9).filter fun v => ConsistentF st x y v st.istar).length

/-- The grid cells in the row-major order of the loops. -/
def cells1to9 : List (ℕ × ℕ) :=
  (List.range' 1 9).flatMap fun x => (List.range' 1 9).map fun y => (x, y)

/-- The cell-selection scan of `Advance()`: keep the first site minimizing
the consistent-digit count, returning `none` (retreat) as soon as the
running minimum hits zero. -/
def scanCells (st : MState) : List (ℕ × ℕ) → ℕ → ℕ → ℕ → Option (ℕ × ℕ × ℕ)
  | [], mp, rp, cp => some (mp, rp, cp)
  | (x, y) :: rest, mp, rp, cp =>
      if st.Gtilde x y ≠ 0 then scanCells st rest mp rp cp
      else
        let m0 := countConsistent st x y
        let mp' := if m0 < mp then m0 else mp
        let rp' := if m0 < mp then x else rp
        let cp' := if m0 < mp then y else cp
        if mp' = 0 then none else scanCells st rest mp' rp' cp'

/-- The writes `j++; n[istar][j] = v` over `v = 1..9` for the consistent
digits, in order. -/
def fillRow (row : ℕ → ℕ) (L : List ℕ) : (ℕ → ℕ) × ℕ :=
  L.foldl (fun acc v => (upd1 acc.1 (acc.2 + 1) v, acc.2 + 1)) (row, 0)

/-- `Advance()`: returns the new state and the next status
(0 = done, 1 = keep advancing, 2 = retreat). -/
def AdvanceF (st : MState) : MState × ℕ :=
  if st.istar = 81 then (st, 0)
  else
    match scanCells st cells1to9 10 0 0 with
    | none => (st, 2)
    | some (mp, rp, cp) =>
        let L := (List.range' 1 9).filter fun v => ConsistentF st rp cp v st.istar
        let pr := fillRow (st.n (st.istar + 1)) L
        ({ istar := st.istar + 1
           Csize := st.Csize
           r := upd1 st.r (st.istar + 1) rp
           c := upd1 st.c (st.istar + 1) cp
           m := upd1 st.m (st.istar + 1) mp
           n := updRow st.n (st.istar + 1) pr.1
           Gtilde := Metro.update2 st.Gtilde rp cp 1 }, 1)

/-- `Retreat()`: stop at the clue trail, else try the next candidate at the
deepest entry, else pop the entry. -/
def RetreatF (st : MState) : MState × ℕ :=
  if st.istar = st.Csize then (st, 0)
  else if 1 < st.m st.istar then
    ({ st with m := upd1 st.m st.istar (st.m st.istar - 1) }, 1)
  else
    ({ st with
        Gtilde := Metro.update2 st.Gtilde (st.r st.istar) (st.c st.istar) 0,
        istar := st.istar - 1 }, 2)

/-- `GettingStarted()`: build the clue trail (one entry per clue cell, in
row-major order, holding the reference solution's digit) and mark the clue
cells in `Gtilde`. -/
def initState : MState :=
  ⟨0, 0, fun _ => 0, fun _ => 0, fun _ => 0, fun _ _ => 0, fun _ _ => 0⟩

def gsStep (C s : ℕ → ℕ → ℕ) (st : MState) (p : ℕ × ℕ) : MState :=
  if C p.1 p.2 ≠ 0 then
    { istar := st.istar + 1
      Csize := st.Csize
      r := upd1 st.r (st.istar + 1) p.1
      c := upd1 st.c (st.istar + 1) p.2
      m := upd1 st.m (st.istar + 1) 1
      n := updRow st.n (st.istar + 1) (upd1 (st.n (st.istar + 1)) 1 (s p.1 p.2))
      Gtilde := Metro.update2 st.Gtilde p.1 p.2 1 }
  else { st with Gtilde := Metro.update2 st.Gtilde p.1 p.2 0 }

def GettingStarted (C s : ℕ → ℕ → ℕ) : MState :=
  let st := cells1to9.foldl (gsStep C s) initState
  { st with Csize := st.istar }

/-- The `while (status != 0)` loop, driven by fuel.  (Defined with a bare
`Nat.rec` so that evaluation peels the fuel literal lazily.) -/
def runSearch : ℕ → ℕ → MState → Option MState := fun fuel =>
  Nat.rec (motive := fun _ => ℕ → MState → Option MState)
    (fun _ _ => none)
    (fun _ ih status st =>
      if status = 0 then some st
      else if status = 1 then
        let p := AdvanceF st
        ih p.2 p.1
      else
        let p := RetreatF st
        ih p.2 p.1)
    fuel

inductive URes where
  | fuelOut : URes
  | problem : URes
  | ans : Bool → URes
deriving DecidableEq

/-- More fuel than any search can consume (see the termination measure). -/
def BIGFUEL : ℕ := 20 ^ 100

/-- `Unique()`: search for a first solution starting in Advance; abort
(`Exit()`, here `problem`) if the trail does not span the 81 cells; then
force a Retreat and search for a second solution; report unique iff the
second search does not reach a full trail again. -/
def UniqueF (C s : ℕ → ℕ → ℕ) : URes :=
  let st0 := GettingStarted C s
  match runSearch BIGFUEL 1 st0 with
  | none => URes.fuelOut
  | some st1 =>
      if st1.istar ≠ 81 then URes.problem
      else
        match runSearch BIGFUEL 2 st1 with
        | none => URes.fuelOut
        | some st2 => URes.ans (decide (st2.istar ≠ 81))

/-! ### Grids, validity and completions -/

def inGrid (x y : ℕ) : Prop := x ∈ Finset.Icc 1 9 ∧ y ∈ Finset.Icc 1 9

instance (x y : ℕ) : Decidable (inGrid x y) := by unfold inGrid; infer_instance

/-- A full assignment satisfying the row, column and 3x3-block all-different
constraints, with digits `1..9` on the grid. -/
def ValidGrid (g : ℕ → ℕ → ℕ) : Prop :=
  (∀ x ∈ Finset.Icc 1 9, ∀ y ∈ Finset.Icc 1 9, 1 ≤ g x y ∧ g x y ≤ 9) ∧
  (∀ x ∈ Finset.Icc 1 9, ∀ y ∈ Finset.Icc 1 9,
   ∀ x' ∈ Finset.Icc 1 9, ∀ y' ∈ Finset.Icc 1 9,
     ¬(x = x' ∧ y = y') →
     (x = x' ∨ y = y' ∨ blockOf x y = blockOf x' y') →
     g x y ≠ g x' y')

instance (g : ℕ → ℕ → ℕ) : Decidable (ValidGrid g) := by
  unfold ValidGrid; infer_instance

/-- A completion of the clue set `C` drawn from the reference solution `s`:
a valid grid agreeing with `s` on every clue cell (normalized to `0` off the
grid so that completions compare as functions). -/
def IsCompletion (C s g : ℕ → ℕ → ℕ) : Prop :=
  ValidGrid g ∧
  (∀ x ∈ Finset.Icc 1 9, ∀ y ∈ Finset.Icc 1 9, C x y ≠ 0 → g x y = s x y) ∧
  (∀ x y : ℕ, ¬inGrid x y → g x y = 0)

/-! ### Termination of the Advance/Retreat search

Each loop iteration strictly decreases the measure `mu`: trail entries carry
a budget for their untried sibling subtrees, and the advancing status carries
a budget for the current subtree. -/

def Afuel (d : ℕ) : ℕ := 2 * 20 ^ d

def Bfuel (d : ℕ) : ℕ := 2 * 20 ^ d + 2

def muVal (mfun : ℕ → ℕ) (istar status : ℕ) : ℕ :=
  (∑ i in Finset.Icc 1 istar, (mfun i - 1) * Bfuel (81 - i))
  + (if status = 1 then Afuel (81 - istar) + 1 else 0) + istar

def mu (st : MState) (status : ℕ) : ℕ := muVal st.m st.istar status

def WFC8 (st : MState) : Prop :=
  st.Csize ≤ st.istar ∧ st.istar ≤ 81 ∧
  ∀ i, 1 ≤ i → i ≤ st.istar → st.m i ≤ 10

theorem scan_mp_le (st : MState) : ∀ (L : List (ℕ × ℕ)) (mp rp cp : ℕ)
    (res : ℕ × ℕ × ℕ), scanCells st L mp rp cp = some res → res.1 ≤ mp := by
  intro L
  induction L with
  | nil =>
      intro mp rp cp res h
      unfold scanCells at h
      obtain rfl : (mp, rp, cp) = res := by exact Option.some_injective _ h
      exact le_refl mp
  | cons p rest ih =>
      intro mp rp cp res h
      obtain ⟨x, y⟩ := p
      unfold scanCells at h
      by_cases hg : st.Gtilde x y ≠ 0
      · rw [if_pos hg] at h
        exact ih mp rp cp res h
      · rw [if_neg hg] at h
        simp only at h
        by_cases h0 : (if countConsistent st x y < mp
            then countConsistent st x y else mp) = 0
        · rw [if_pos h0] at h
          exact absurd h (by simp)
        · rw [if_neg h0] at h
          have hrec := ih _ _ _ res h
          by_cases hlt : countConsistent st x y < mp
          · rw [if_pos hlt] at hrec; omega
          · rw [if_neg hlt] at hrec; omega

theorem sum_Icc_one_split (f : ℕ → ℕ) (k : ℕ) (hk : 1 ≤ k) :
    ∑ i in Finset.Icc 1 k, f i = (∑ i in Finset.Icc 1 (k - 1), f i) + f k := by
  obtain ⟨j, rfl⟩ : ∃ j, k = j + 1 := ⟨k - 1, by omega⟩
  rw [Finset.sum_Icc_succ_top (by omega)]
  simp

theorem pow20_pos (d : ℕ) : 0 < 20 ^ d := Nat.pos_pow_of_pos d (by norm_num)

theorem muVal_retreat_next (mfun : ℕ → ℕ) (k : ℕ) (hk : 1 ≤ k)
    (hm2 : 2 ≤ mfun k) :
    muVal (upd1 mfun k (mfun k - 1)) k 1 < muVal mfun k 2 := by
  unfold muVal
  rw [if_pos rfl, if_neg (by norm_num : ¬(2 : ℕ) = 1)]
  rw [sum_Icc_one_split (fun i => (upd1 mfun k (mfun k - 1) i - 1) * Bfuel (81 - i)) k hk,
      sum_Icc_one_split (fun i => (mfun i - 1) * Bfuel (81 - i)) k hk]
  have hcong : ∑ i in Finset.Icc 1 (k - 1),
      (upd1 mfun k (mfun k - 1) i - 1) * Bfuel (81 - i)
      = ∑ i in Finset.Icc 1 (k - 1), (mfun i - 1) * Bfuel (81 - i) := by
    refine Finset.sum_congr rfl fun i hi => ?_
    rw [Finset.mem_Icc] at hi
    unfold upd1
    rw [if_neg (by omega)]
  rw [hcong]
  have htop : upd1 mfun k (mfun k - 1) k = mfun k - 1 := by
    unfold upd1; rw [if_pos rfl]
  rw [htop]
  have hAB : Bfuel (81 - k) = Afuel (81 - k) + 2 := by
    unfold Afuel Bfuel; ring
  have hfact : (mfun k - 1 - 1) * Bfuel (81 - k) + Bfuel (81 - k)
      = (mfun k - 1) * Bfuel (81 - k) := by
    have h1 : mfun k - 1 - 1 + 1 = mfun k - 1 := by omega
    calc (mfun k - 1 - 1) * Bfuel (81 - k) + Bfuel (81 - k)
        = (mfun k - 1 - 1 + 1) * Bfuel (81 - k) := by ring
      _ = (mfun k - 1) * Bfuel (81 - k) := by rw [h1]
  omega

theorem muVal_retreat_pop (mfun : ℕ → ℕ) (k : ℕ) (hk : 1 ≤ k)
    (hm1 : mfun k ≤ 1) :
    muVal mfun (k - 1) 2 < muVal mfun k 2 := by
  unfold muVal
  rw [if_neg (by norm_num : ¬(2 : ℕ) = 1), if_neg (by norm_num : ¬(2 : ℕ) = 1)]
  rw [sum_Icc_one_split (fun i => (mfun i - 1) * Bfuel (81 - i)) k hk]
  have hz : (mfun k - 1) * Bfuel (81 - k) = 0 := by
    have h1 : mfun k - 1 = 0 := by omega
    rw [h1, Nat.zero_mul]
  omega

theorem muVal_advance_fail (mfun : ℕ → ℕ) (k : ℕ) :
    muVal mfun k 2 < muVal mfun k 1 := by
  unfold muVal
  rw [if_pos rfl, if_neg (by norm_num : ¬(2 : ℕ) = 1)]
  have hpos := pow20_pos (81 - k)
  unfold Afuel
  omega

theorem muVal_advance_succ (mfun : ℕ → ℕ) (k mp : ℕ) (hk : k ≤ 80)
    (hmp : mp ≤ 10) :
    muVal (upd1 mfun (k + 1) mp) (k + 1) 1 < muVal mfun k 1 := by
  unfold muVal
  rw [if_pos rfl, if_pos rfl]
  rw [Finset.sum_Icc_succ_top (by omega : 1 ≤ k + 1)]
  have hcong : ∑ i in Finset.Icc 1 k,
      (upd1 mfun (k + 1) mp i - 1) * Bfuel (81 - i)
      = ∑ i in Finset.Icc 1 k, (mfun i - 1) * Bfuel (81 - i) := by
    refine Finset.sum_congr rfl fun i hi => ?_
    rw [Finset.mem_Icc] at hi
    unfold upd1
    rw [if_neg (by omega)]
  rw [hcong]
  have htop : upd1 mfun (k + 1) mp (k + 1) = mp := by
    unfold upd1; rw [if_pos rfl]
  rw [htop]
  have hsub1 : 81 - (k + 1) = 80 - k := by omega
  have hsub2 : 81 - k = (80 - k) + 1 := by omega
  rw [hsub1, hsub2]
  unfold Afuel Bfuel
  rw [pow_succ]
  have hpos := pow20_pos (80 - k)
  set t := 20 ^ (80 - k)
  have hb : (mp - 1) * (2 * t + 2) ≤ 9 * (2 * t + 2) :=
    Nat.mul_le_mul_right _ (by omega)
  have h9 : 9 * (2 * t + 2) = 18 * t + 18 := by ring
  have h40 : 2 * (t * 20) = 40 * t := by ring
  omega

theorem retreat_step (st : MState) (hWF : WFC8 st) :
    ((RetreatF st).2 = 0 ∧ (RetreatF st).1 = st) ∨
    (WFC8 (RetreatF st).1 ∧ ((RetreatF st).2 = 1 ∨ (RetreatF st).2 = 2) ∧
      mu (RetreatF st).1 (RetreatF st).2 < mu st 2) := by
  obtain ⟨hCs, h81, hm⟩ := hWF
  unfold RetreatF
  by_cases hstop : st.istar = st.Csize
  · rw [if_pos hstop]
    exact Or.inl ⟨rfl, rfl⟩
  · rw [if_neg hstop]
    have hk1 : 1 ≤ st.istar := by omega
    by_cases hnext : 1 < st.m st.istar
    · rw [if_pos hnext]
      refine Or.inr ⟨⟨hCs, h81, ?_⟩, Or.inl rfl, ?_⟩
      · intro i h1 h2
        have h2' : i ≤ st.istar := h2
        show upd1 st.m st.istar (st.m st.istar - 1) i ≤ 10
        unfold upd1
        by_cases hi : i = st.istar
        · rw [if_pos hi]
          have := hm st.istar hk1 (le_refl _)
          omega
        · rw [if_neg hi]; exact hm i h1 h2'
      · show muVal (upd1 st.m st.istar (st.m st.istar - 1)) st.istar 1
          < muVal st.m st.istar 2
        exact muVal_retreat_next st.m st.istar hk1 hnext
    · rw [if_neg hnext]
      refine Or.inr ⟨⟨?_, ?_, ?_⟩, Or.inr rfl, ?_⟩
      · exact (by omega : st.Csize ≤ st.istar - 1)
      · exact (by omega : st.istar - 1 ≤ 81)
      · intro i h1 h2
        have h2' : i ≤ st.istar - 1 := h2
        show st.m i ≤ 10
        exact hm i h1 (by omega)
      · show muVal st.m (st.istar - 1) 2 < muVal st.m st.istar 2
        exact muVal_retreat_pop st.m st.istar hk1 (by omega)

theorem advance_step (st : MState) (hWF : WFC8 st) :
    ((AdvanceF st).2 = 0 ∧ (AdvanceF st).1 = st) ∨
    (WFC8 (AdvanceF st).1 ∧ ((AdvanceF st).2 = 1 ∨ (AdvanceF st).2 = 2) ∧
      mu (AdvanceF st).1 (AdvanceF st).2 < mu st 1) := by
  obtain ⟨hCs, h81, hm⟩ := hWF
  unfold AdvanceF
  by_cases hdone : st.istar = 81
  · rw [if_pos hdone]
    exact Or.inl ⟨rfl, rfl⟩
  · rw [if_neg hdone]
    cases hscan : scanCells st cells1to9 10 0 0 with
    | none =>
        simp only [hscan]
        refine Or.inr ⟨⟨hCs, h81, hm⟩, Or.inr (by trivial), ?_⟩
        exact muVal_advance_fail st.m st.istar
    | some res =>
        obtain ⟨mp, rp, cp⟩ := res
        simp only [hscan]
        have hmp : mp ≤ 10 := scan_mp_le st cells1to9 10 0 0 (mp, rp, cp) hscan
        have hlt : st.istar ≤ 80 := by omega
        refine Or.inr ⟨⟨?_, ?_, ?_⟩, Or.inl (by trivial), ?_⟩
        · exact (by omega : st.Csize ≤ st.istar + 1)
        · exact (by omega : st.istar + 1 ≤ 81)
        · intro i h1 h2
          have h2' : i ≤ st.istar + 1 := h2
          show upd1 st.m (st.istar + 1) mp i ≤ 10
          unfold upd1
          by_cases hi : i = st.istar + 1
          · rw [if_pos hi]; exact hmp
          · rw [if_neg hi]; exact hm i h1 (by omega)
        · show muVal (upd1 st.m (st.istar + 1) mp) (st.istar + 1) 1
            < muVal st.m st.istar 1
          exact muVal_advance_succ st.m st.istar mp hlt hmp

theorem runSearch_succ (f status : ℕ) (st : MState) :
    runSearch (f + 1) status st
      = if status = 0 then some st
        else if status = 1 then runSearch f (AdvanceF st).2 (AdvanceF st).1
        else runSearch f (RetreatF st).2 (RetreatF st).1 := rfl

theorem runSearch_succeeds : ∀ (fuel status : ℕ) (st : MState),
    WFC8 st → (status = 0 ∨ status = 1 ∨ status = 2) →
    mu st status + 2 ≤ fuel →
    ∃ st', runSearch fuel status st = some st' ∧ WFC8 st' := by
  intro fuel
  induction fuel with
  | zero => intro status st _ _ h; omega
  | succ f ih =>
      intro status st hWF hs hfuel
      rw [runSearch_succ]
      rcases hs with h0 | h1 | h2
      · rw [if_pos h0]
        exact ⟨st, rfl, hWF⟩
      · rw [if_neg (by omega), if_pos h1]
        rcases advance_step st hWF with ⟨hz, hst⟩ | ⟨hWF', hs', hmu⟩
        · rw [hz, hst]
          subst h1
          have : mu st 1 + 2 ≤ f + 1 := hfuel
          have hf : 1 ≤ f := by
            unfold mu at this
            omega
          obtain ⟨f', hf'⟩ : ∃ f', f = f' + 1 := ⟨f - 1, by omega⟩
          rw [hf', runSearch_succ, if_pos rfl]
          exact ⟨st, rfl, hWF⟩
        · subst h1
          exact ih (AdvanceF st).2 (AdvanceF st).1 hWF'
            (by rcases hs' with h | h; · exact Or.inr (Or.inl h)
                · exact Or.inr (Or.inr h)) (by omega)
      · rw [if_neg (by omega), if_neg (by omega)]
        rcases retreat_step st hWF with ⟨hz, hst⟩ | ⟨hWF', hs', hmu⟩
        · rw [hz, hst]
          obtain ⟨f', hf'⟩ : ∃ f', f = f' + 1 := ⟨f - 1, by omega⟩
          rw [hf', runSearch_succ, if_pos rfl]
          exact ⟨st, rfl, hWF⟩
        · subst h2
          exact ih (RetreatF st).2 (RetreatF st).1 hWF'
            (by rcases hs' with h | h; · exact Or.inr (Or.inl h)
                · exact Or.inr (Or.inr h)) (by omega)

/-! ### Characterization of the `Advance()` cell scan and candidate list -/

theorem mem_cells1to9 (x y : ℕ) :
    (x, y) ∈ cells1to9 ↔ (1 ≤ x ∧ x ≤ 9 ∧ 1 ≤ y ∧ y ≤ 9) := by
  unfold cells1to9
  simp only [List.mem_flatMap, List.mem_map, List.mem_range'_1, Prod.mk.injEq]
  constructor
  · rintro ⟨a, ⟨ha1, ha2⟩, b, ⟨hb1, hb2⟩, hax, hby⟩
    omega
  · intro h
    exact ⟨x, ⟨h.1, by omega⟩, y, ⟨h.2.2.1, by omega⟩, rfl, rfl⟩

theorem countConsistent_le_nine (st : MState) (x y : ℕ) :
    countConsistent st x y ≤ 9 := by
  unfold countConsistent
  calc ((List.range' 1 9).filter fun v => ConsistentF st x y v st.istar).length
      ≤ (List.range' 1 9).length := List.length_filter_le _ _
    _ = 9 := by simp

theorem scan_none_iff (st : MState) : ∀ (L : List (ℕ × ℕ)) (mp rp cp : ℕ),
    0 < mp →
    (scanCells st L mp rp cp = none ↔
      ∃ q ∈ L, st.Gtilde q.1 q.2 = 0 ∧ countConsistent st q.1 q.2 = 0) := by
  intro L
  induction L with
  | nil =>
      intro mp rp cp hp
      unfold scanCells
      simp
  | cons p rest ih =>
      intro mp rp cp hp
      obtain ⟨x, y⟩ := p
      unfold scanCells
      by_cases hg : st.Gtilde x y ≠ 0
      · rw [if_pos hg, ih mp rp cp hp]
        constructor
        · rintro ⟨q, hq, h0⟩
          exact ⟨q, List.mem_cons_of_mem _ hq, h0⟩
        · rintro ⟨q, hq, h0⟩
          rcases List.mem_cons.mp hq with rfl | hq'
          · exact absurd h0.1 hg
          · exact ⟨q, hq', h0⟩
      · rw [if_neg hg]
        push_neg at hg
        simp only
        by_cases h0 : countConsistent st x y = 0
        · have hlt : countConsistent st x y < mp := by omega
          rw [if_pos hlt, if_pos (by omega : (countConsistent st x y) = 0)]
          simp only [true_iff]
          exact ⟨(x, y), List.mem_cons_self _ _, hg, h0⟩
        · have hmp' : ¬(if countConsistent st x y < mp
              then countConsistent st x y else mp) = 0 := by
            split_ifs <;> omega
          rw [if_neg hmp']
          rw [ih _ _ _ (by split_ifs at hmp' ⊢ <;> omega)]
          constructor
          · rintro ⟨q, hq, hz⟩
            exact ⟨q, List.mem_cons_of_mem _ hq, hz⟩
          · rintro ⟨q, hq, hz⟩
            rcases List.mem_cons.mp hq with rfl | hq'
            · exact absurd hz.2 h0
            · exact ⟨q, hq', hz⟩

theorem scan_some_pos (st : MState) : ∀ (L : List (ℕ × ℕ)) (mp rp cp : ℕ)
    (res : ℕ × ℕ × ℕ), 0 < mp → scanCells st L mp rp cp = some res →
    0 < res.1 := by
  intro L
  induction L with
  | nil =>
      intro mp rp cp res hp h
      unfold scanCells at h
      obtain rfl : (mp, rp, cp) = res := Option.some_injective _ h
      exact hp
  | cons p rest ih =>
      intro mp rp cp res hp h
      obtain ⟨x, y⟩ := p
      unfold scanCells at h
      by_cases hg : st.Gtilde x y ≠ 0
      · rw [if_pos hg] at h
        exact ih _ _ _ res hp h
      · rw [if_neg hg] at h
        simp only at h
        by_cases hz : (if countConsistent st x y < mp
            then countConsistent st x y else mp) = 0
        · rw [if_pos hz] at h
          exact absurd h (by simp)
        · rw [if_neg hz] at h
          exact ih _ _ _ res (by omega) h

theorem scan_some_spec (st : MState) : ∀ (L : List (ℕ × ℕ)) (mp rp cp : ℕ)
    (res : ℕ × ℕ × ℕ), scanCells st L mp rp cp = some res →
    ((∀ q ∈ L, st.Gtilde q.1 q.2 = 0 →
        res.1 ≤ countConsistent st q.1 q.2) ∧
      res.1 ≤ mp ∧
      (res = (mp, rp, cp) ∨
        ((res.2.1, res.2.2) ∈ L ∧ st.Gtilde res.2.1 res.2.2 = 0 ∧
          countConsistent st res.2.1 res.2.2 = res.1))) := by
  intro L
  induction L with
  | nil =>
      intro mp rp cp res h
      unfold scanCells at h
      obtain rfl : (mp, rp, cp) = res := Option.some_injective _ h
      exact ⟨by simp, le_refl _, Or.inl rfl⟩
  | cons p rest ih =>
      intro mp rp cp res h
      obtain ⟨x, y⟩ := p
      unfold scanCells at h
      by_cases hg : st.Gtilde x y ≠ 0
      · rw [if_pos hg] at h
        obtain ⟨hmin, hle, hres⟩ := ih _ _ _ res h
        refine ⟨?_, hle, ?_⟩
        · intro q hq hfree
          rcases List.mem_cons.mp hq with rfl | hq'
          · exact absurd hfree hg
          · exact hmin q hq' hfree
        · rcases hres with h' | h'
          · exact Or.inl h'
          · exact Or.inr ⟨List.mem_cons_of_mem _ h'.1, h'.2⟩
      · rw [if_neg hg] at h
        push_neg at hg
        simp only at h
        by_cases hz : (if countConsistent st x y < mp
            then countConsistent st x y else mp) = 0
        · rw [if_pos hz] at h
          exact absurd h (by simp)
        · rw [if_neg hz] at h
          by_cases hlt : countConsistent st x y < mp
          · simp only [if_pos hlt] at h
            obtain ⟨hmin, hle, hres⟩ :=
              ih (countConsistent st x y) x y res h
            refine ⟨?_, by omega, ?_⟩
            · intro q hq hfree
              rcases List.mem_cons.mp hq with rfl | hq'
              · exact hle
              · exact hmin q hq' hfree
            · rcases hres with h' | h'
              · subst h'
                exact Or.inr ⟨List.mem_cons_self _ _, hg, rfl⟩
              · exact Or.inr ⟨List.mem_cons_of_mem _ h'.1, h'.2⟩
          · simp only [if_neg hlt] at h
            obtain ⟨hmin, hle, hres⟩ := ih mp rp cp res h
            refine ⟨?_, hle, ?_⟩
            · intro q hq hfree
              rcases List.mem_cons.mp hq with rfl | hq'
              · exact (by omega : res.1 ≤ countConsistent st x y)
              · exact hmin q hq' hfree
            · rcases hres with h' | h'
              · exact Or.inl h'
              · exact Or.inr ⟨List.mem_cons_of_mem _ h'.1, h'.2⟩

theorem fillRow_len (row : ℕ → ℕ) (L : List ℕ) :
    (fillRow row L).2 = L.length := by
  induction L using List.reverseRecOn with
  | nil => rfl
  | append_singleton l v ih =>
      unfold fillRow at ih ⊢
      rw [List.foldl_append, List.foldl_cons, List.foldl_nil]
      simp only [ih, List.length_append, List.length_singleton]

theorem fillRow_get (row : ℕ → ℕ) : ∀ (L : List ℕ) (j : ℕ), 1 ≤ j →
    j ≤ L.length → (fillRow row L).1 j = L.getD (j - 1) 0 := by
  intro L
  induction L using List.reverseRecOn with
  | nil => intro j h1 h2; simp at h2; omega
  | append_singleton l v ih =>
      intro j h1 h2
      have hlen := fillRow_len row l
      unfold fillRow at hlen ih ⊢
      rw [List.foldl_append, List.foldl_cons, List.foldl_nil]
      simp only [List.length_append, List.length_singleton] at h2
      show upd1 _ (_ + 1) v j = _
      simp only [hlen]
      by_cases hj : j = l.length + 1
      · rw [hj, upd1_same]
        rw [List.getD_append_right _ _ _ _ (by omega)]
        simp
      · rw [upd1_other _ _ _ _ hj]
        rw [ih j h1 (by omega)]
        rw [List.getD_append _ _ _ _ (by omega)]

theorem muVal_le_bound (mfun : ℕ → ℕ) (k status : ℕ) (hk : k ≤ 81)
    (hm : ∀ i, 1 ≤ i → i ≤ k → mfun i ≤ 10) :
    muVal mfun k status + 2 ≤ BIGFUEL := by
  unfold muVal BIGFUEL
  have hBmono : ∀ i : ℕ, 1 ≤ i → Bfuel (81 - i) ≤ Bfuel 80 := by
    intro i hi
    unfold Bfuel
    have := Nat.pow_le_pow_right (by norm_num : 1 ≤ 20) (by omega : 81 - i ≤ 80)
    omega
  have hsum : ∑ i in Finset.Icc 1 k, (mfun i - 1) * Bfuel (81 - i)
      ≤ 81 * (9 * Bfuel 80) := by
    calc ∑ i in Finset.Icc 1 k, (mfun i - 1) * Bfuel (81 - i)
        ≤ ∑ _i in Finset.Icc 1 k, 9 * Bfuel 80 := by
          refine Finset.sum_le_sum fun i hi => ?_
          rw [Finset.mem_Icc] at hi
          have h1 : mfun i - 1 ≤ 9 := by have := hm i hi.1 hi.2; omega
          exact Nat.mul_le_mul h1 (hBmono i hi.1)
      _ = (Finset.Icc 1 k).card * (9 * Bfuel 80) := by
          rw [Finset.sum_const, smul_eq_mul]
      _ ≤ 81 * (9 * Bfuel 80) := by
          refine Nat.mul_le_mul_right _ ?_
          rw [Nat.card_Icc]
          omega
  have hstat : (if status = 1 then Afuel (81 - k) + 1 else 0) ≤ Afuel 81 + 1 := by
    split_ifs
    · unfold Afuel
      have := Nat.pow_le_pow_right (by norm_num : 1 ≤ 20) (by omega : 81 - k ≤ 81)
      omega
    · omega
  have e81 : (20 : ℕ) ^ 81 = 20 * 20 ^ 80 := by
    rw [pow_succ]; ring
  have ekey : (3040 : ℕ) * 20 ^ 80 ≤ 20 ^ 100 := by
    have h2 : (3040 : ℕ) ≤ 20 ^ 20 := by
      calc (3040 : ℕ) ≤ 20 ^ 3 := by norm_num
        _ ≤ 20 ^ 20 := Nat.pow_le_pow_right (by norm_num) (by norm_num)
    calc (3040 : ℕ) * 20 ^ 80 ≤ 20 ^ 20 * 20 ^ 80 := Nat.mul_le_mul_right _ h2
      _ = 20 ^ 100 := by rw [← pow_add]
  have hu : 1 ≤ (20 : ℕ) ^ 80 := Nat.one_le_pow _ _ (by norm_num)
  unfold Afuel Bfuel at *
  omega

theorem gs_fold_inv (C s : ℕ → ℕ → ℕ) : ∀ (L : List (ℕ × ℕ)) (st : MState),
    (∀ i, 1 ≤ i → i ≤ st.istar → st.m i = 1) →
    ((L.foldl (gsStep C s) st).istar ≤ st.istar + L.length ∧
      ∀ i, 1 ≤ i → i ≤ (L.foldl (gsStep C s) st).istar →
        (L.foldl (gsStep C s) st).m i = 1) := by
  intro L
  induction L with
  | nil =>
      intro st hm
      exact ⟨by simp, fun i h1 h2 => hm i h1 h2⟩
  | cons p rest ih =>
      intro st hm
      rw [List.foldl_cons]
      have hstep : (∀ i, 1 ≤ i → i ≤ (gsStep C s st p).istar →
          (gsStep C s st p).m i = 1) ∧
          (gsStep C s st p).istar ≤ st.istar + 1 := by
        unfold gsStep
        by_cases hc : C p.1 p.2 ≠ 0
        · rw [if_pos hc]
          constructor
          · intro i h1 h2
            have h2' : i ≤ st.istar + 1 := h2
            show upd1 st.m (st.istar + 1) 1 i = 1
            unfold upd1
            by_cases hi : i = st.istar + 1
            · rw [if_pos hi]
            · rw [if_neg hi]
              exact hm i h1 (by omega)
          · exact le_refl _
        · rw [if_neg hc]
          exact ⟨fun i h1 h2 => hm i h1 h2,
            (by omega : st.istar ≤ st.istar + 1)⟩
      obtain ⟨hmon, hlen⟩ := ih (gsStep C s st p) hstep.1
      refine ⟨?_, hlen⟩
      have := hstep.2
      simp only [List.length_cons]
      omega

theorem GettingStarted_WF (C s : ℕ → ℕ → ℕ) :
    WFC8 (GettingStarted C s) ∧
    (∀ i, 1 ≤ i → i ≤ (GettingStarted C s).istar →
      (GettingStarted C s).m i = 1) := by
  have hinit : ∀ i, 1 ≤ i → i ≤ initState.istar → initState.m i = 1 := by
    intro i h1 h2
    have : i ≤ 0 := h2
    omega
  obtain ⟨hle, hm⟩ := gs_fold_inv C s cells1to9 initState hinit
  have hlen : cells1to9.length = 81 := by decide
  have histar : (GettingStarted C s).istar
      = (cells1to9.foldl (gsStep C s) initState).istar := rfl
  have hCsize : (GettingStarted C s).Csize
      = (cells1to9.foldl (gsStep C s) initState).istar := rfl
  have hmm : (GettingStarted C s).m
      = (cells1to9.foldl (gsStep C s) initState).m := rfl
  constructor
  · refine ⟨?_, ?_, ?_⟩
    · rw [hCsize, histar]
    · rw [histar]
      have : initState.istar = 0 := rfl
      omega
    · intro i h1 h2
      rw [hmm]
      rw [histar] at h2
      rw [hm i h1 h2]
      omega
  · intro i h1 h2
    rw [hmm]
    rw [histar] at h2
    exact hm i h1 h2

/-- The clue set with every site flagged. -/
def fullClues : ℕ → ℕ → ℕ := fun _ _ => 1

/-- A concrete valid reference solution (the cyclically shifted pattern). -/
def refSol : ℕ → ℕ → ℕ := fun x y =>
  if inGrid x y then (3 * (x - 1) + (x - 1) / 3 + (y - 1)) % 9 + 1 else 0

/-- The search state reached from the empty clue set: an empty trail with
every cell free.  Used to exercise the very first `Advance()`. -/
def advDemo : MState := GettingStarted (fun _ _ => 0) (fun _ _ => 0)

theorem flipSeq_symmetric (C : ℕ → ℕ → ℕ) (ms : List (ℕ × ℕ))
    (hC : SymmetricClues C)
    (hms : ∀ p ∈ ms, p.1 ∈ Finset.Icc 1 9 ∧ p.2 ∈ Finset.Icc 1 9) :
    SymmetricClues (FlipSeq C ms) := by
  induction ms generalizing C with
  | nil => exact hC
  | cons p t ih =>
      have hp := hms p (List.mem_cons_self p t)
      exact ih (Flip C p.1 p.2).1
        (flip_symmetric C p.1 p.2 hp.1 hp.2 hC)
        (fun q hq => hms q (List.mem_cons_of_mem p hq))

/-! ### Soundness of the uniqueness oracle

For the reducer invariant of `Metropolis2` we prove that whenever the
embedded `Unique()` reports `1`, the clue set has exactly one completion.
The proof tracks the set of completions not yet excluded by the
backtracking search and shows every Advance/Retreat step preserves it. -/

theorem inGrid_iff (x y : ℕ) :
    inGrid x y ↔ (1 ≤ x ∧ x ≤ 9 ∧ 1 ≤ y ∧ y ≤ 9) := by
  unfold inGrid
  simp only [Finset.mem_Icc]
  tauto

theorem consistentF_iff (st : MState) (x y v k : ℕ) :
    ConsistentF st x y v k = true ↔
      ∀ i, 1 ≤ i → i ≤ k →
        ¬(v = st.n i (st.m i) ∧
          (st.r i = x ∨ st.c i = y ∨
            blockOf (st.r i) (st.c i) = blockOf x y)) := by
  unfold ConsistentF
  rw [List.all_eq_true]
  constructor
  · intro h i h1 h2
    have hm : i ∈ List.range' 1 k := by rw [List.mem_range'_1]; omega
    have := h i hm
    simp only [Bool.not_eq_true', Bool.and_eq_false_iff, beq_eq_false_iff_ne,
      ne_eq, Bool.or_eq_false_iff] at this
    tauto
  · intro h i hi
    rw [List.mem_range'_1] at hi
    have := h i (by omega) (by omega)
    simp only [Bool.not_eq_true', Bool.and_eq_false_iff, beq_eq_false_iff_ne,
      ne_eq, Bool.or_eq_false_iff]
    tauto

theorem consistentF_congr (st' st : MState) (x y v k : ℕ)
    (hr : ∀ i, 1 ≤ i → i ≤ k → st'.r i = st.r i)
    (hc : ∀ i, 1 ≤ i → i ≤ k → st'.c i = st.c i)
    (hnm : ∀ i, 1 ≤ i → i ≤ k → st'.n i (st'.m i) = st.n i (st.m i)) :
    ConsistentF st' x y v k = ConsistentF st x y v k := by
  cases hb : ConsistentF st x y v k with
  | true =>
      rw [consistentF_iff]
      intro i h1 h2
      rw [hr i h1 h2, hc i h1 h2, hnm i h1 h2]
      exact (consistentF_iff st x y v k).mp hb i h1 h2
  | false =>
      rw [Bool.eq_false_iff]
      intro htrue
      have hall := (consistentF_iff st' x y v k).mp htrue
      have : ConsistentF st x y v k = true := by
        rw [consistentF_iff]
        intro i h1 h2
        rw [← hr i h1 h2, ← hc i h1 h2, ← hnm i h1 h2]
        exact hall i h1 h2
      rw [hb] at this
      exact Bool.noConfusion this

theorem countConsistent_eq_zero_iff (st : MState) (x y : ℕ) :
    countConsistent st x y = 0 ↔
      ∀ v, 1 ≤ v → v ≤ 9 → ConsistentF st x y v st.istar = false := by
  unfold countConsistent
  rw [List.length_eq_zero, List.filter_eq_nil_iff]
  constructor
  · intro h v h1 h2
    have hm : v ∈ List.range' 1 9 := by rw [List.mem_range'_1]; omega
    have := h v hm
    simpa using this
  · intro h v hv
    rw [List.mem_range'_1] at hv
    simpa using h v (by omega) (by omega)

/-- `g` matches the current digit of each trail entry `1..k`. -/
def Agrees (st : MState) (k : ℕ) (g : ℕ → ℕ → ℕ) : Prop :=
  ∀ i, 1 ≤ i → i ≤ k → g (st.r i) (st.c i) = st.n i (st.m i)

/-- The completions still reachable from the current point of the search:
when advancing (`status = 1`), those extending the whole current branch;
in both phases, those extending a still-untried sibling candidate at some
non-clue trail level. -/
def TDmem (C s : ℕ → ℕ → ℕ) (status : ℕ) (st : MState)
    (g : ℕ → ℕ → ℕ) : Prop :=
  (status = 1 ∧ IsCompletion C s g ∧ Agrees st st.istar g) ∨
  (∃ i, st.Csize < i ∧ i ≤ st.istar ∧ IsCompletion C s g ∧
    Agrees st (i - 1) g ∧
    ∃ j, 1 ≤ j ∧ j < st.m i ∧ g (st.r i) (st.c i) = st.n i j)

/-- The state invariant of the Advance/Retreat search: the trail consists of
distinct in-grid cells mirrored by `Gtilde`, its prefix `1..Csize` carries the
clue cells with the reference digits, and each non-clue entry carries a
strictly increasing row of in-range candidate digits, each consistent with
the trail below it; `m` points into that row. -/
structure SInv (C s : ℕ → ℕ → ℕ) (st : MState) : Prop where
  csize_le : st.Csize ≤ st.istar
  istar_le : st.istar ≤ 81
  cell_mem : ∀ i, 1 ≤ i → i ≤ st.istar → inGrid (st.r i) (st.c i)
  distinct : ∀ i j, 1 ≤ i → i < j → j ≤ st.istar →
    ¬(st.r i = st.r j ∧ st.c i = st.c j)
  gtilde_iff : ∀ x y, inGrid x y →
    (st.Gtilde x y ≠ 0 ↔
      ∃ i, 1 ≤ i ∧ i ≤ st.istar ∧ st.r i = x ∧ st.c i = y)
  clue_entry : ∀ i, 1 ≤ i → i ≤ st.Csize →
    st.m i = 1 ∧ st.n i 1 = s (st.r i) (st.c i) ∧ C (st.r i) (st.c i) ≠ 0
  clue_cover : ∀ x y, inGrid x y → C x y ≠ 0 →
    ∃ i, 1 ≤ i ∧ i ≤ st.Csize ∧ st.r i = x ∧ st.c i = y
  m_pos : ∀ i, st.Csize < i → i ≤ st.istar → 1 ≤ st.m i
  cand_range : ∀ i j, st.Csize < i → i ≤ st.istar → 1 ≤ j → j ≤ st.m i →
    1 ≤ st.n i j ∧ st.n i j ≤ 9
  cand_consistent : ∀ i j, st.Csize < i → i ≤ st.istar → 1 ≤ j →
    j ≤ st.m i →
    ConsistentF st (st.r i) (st.c i) (st.n i j) (i - 1) = true
  cand_mono : ∀ i j k, st.Csize < i → i ≤ st.istar → 1 ≤ j → j < k →
    k ≤ st.m i → st.n i j < st.n i k

theorem mem_candList (st : MState) (x y v : ℕ) :
    v ∈ (List.range' 1 9).filter
        (fun v => ConsistentF st x y v st.istar) ↔
      (1 ≤ v ∧ v ≤ 9 ∧ ConsistentF st x y v st.istar = true) := by
  simp only [List.mem_filter, List.mem_range'_1]
  constructor
  · rintro ⟨⟨a, b⟩, c⟩
    exact ⟨a, by omega, c⟩
  · rintro ⟨a, b, c⟩
    exact ⟨⟨a, by omega⟩, c⟩

/-- The digit a completion assigns to a free cell is consistent with the
whole current trail. -/
theorem completion_digit_consistent (C s : ℕ → ℕ → ℕ) (st : MState)
    (hInv : SInv C s st) (g : ℕ → ℕ → ℕ) (hg : IsCompletion C s g)
    (hag : Agrees st st.istar g) (x y : ℕ) (hxy : inGrid x y)
    (hfree : st.Gtilde x y = 0) :
    ConsistentF st x y (g x y) st.istar = true := by
  rw [consistentF_iff]
  intro i h1 h2 hcon
  obtain ⟨hvd, hshare⟩ := hcon
  have hcell := hInv.cell_mem i h1 h2
  have hne : ¬(st.r i = x ∧ st.c i = y) := by
    intro hand
    exact (hInv.gtilde_iff x y hxy).mpr ⟨i, h1, h2, hand.1, hand.2⟩ hfree
  have hgi : g (st.r i) (st.c i) = st.n i (st.m i) := hag i h1 h2
  exact hg.1.2 (st.r i) hcell.1 (st.c i) hcell.2 x hxy.1 y hxy.2 hne hshare
    (by rw [hgi]; exact hvd.symm)

/-- A trail shorter than the grid leaves some cell free. -/
theorem exists_free_cell (C s : ℕ → ℕ → ℕ) (st : MState) (hInv : SInv C s st)
    (hlt : st.istar ≤ 80) : ∃ x y, inGrid x y ∧ st.Gtilde x y = 0 := by
  have hSG : (Finset.Icc 1 st.istar).image (fun i => (st.r i, st.c i)) ⊆
      Finset.Icc 1 9 ×ˢ Finset.Icc 1 9 := by
    intro q hq
    rw [Finset.mem_image] at hq
    obtain ⟨i, hi, hq⟩ := hq
    rw [Finset.mem_Icc] at hi
    have := hInv.cell_mem i hi.1 hi.2
    rw [← hq, Finset.mem_product]
    exact ⟨this.1, this.2⟩
  have hScard : ((Finset.Icc 1 st.istar).image
      (fun i => (st.r i, st.c i))).card ≤ 80 :=
    le_trans Finset.card_image_le (by rw [Nat.card_Icc]; omega)
  have hGcard : (Finset.Icc 1 9 ×ˢ Finset.Icc (1 : ℕ) 9).card = 81 := by
    rw [Finset.card_product, Nat.card_Icc]
  have hne : ((Finset.Icc 1 9 ×ˢ Finset.Icc (1 : ℕ) 9) \
      (Finset.Icc 1 st.istar).image (fun i => (st.r i, st.c i))).Nonempty := by
    rw [← Finset.card_pos, Finset.card_sdiff hSG, hGcard]
    omega
  obtain ⟨⟨x, y⟩, hq⟩ := hne
  rw [Finset.mem_sdiff] at hq
  have hmem := Finset.mem_product.mp hq.1
  refine ⟨x, y, ⟨hmem.1, hmem.2⟩, ?_⟩
  by_contra h0
  obtain ⟨i, h1, h2, hr, hc⟩ :=
    (hInv.gtilde_iff x y ⟨hmem.1, hmem.2⟩).mp h0
  exact hq.2 (Finset.mem_image.mpr
    ⟨i, Finset.mem_Icc.mpr ⟨h1, h2⟩, by rw [hr, hc]⟩)

/-- A full trail covers every grid cell. -/
theorem trail_covers (C s : ℕ → ℕ → ℕ) (st : MState) (hInv : SInv C s st)
    (h81 : st.istar = 81) (x y : ℕ) (hxy : inGrid x y) :
    ∃ i, 1 ≤ i ∧ i ≤ st.istar ∧ st.r i = x ∧ st.c i = y := by
  have hsurj := Finset.surj_on_of_inj_on_of_card_le
    (s := Finset.Icc 1 st.istar) (t := Finset.Icc 1 9 ×ˢ Finset.Icc 1 9)
    (fun i _ => (st.r i, st.c i))
    (fun i hi => by
      rw [Finset.mem_Icc] at hi
      have := hInv.cell_mem i hi.1 hi.2
      rw [Finset.mem_product]
      exact ⟨this.1, this.2⟩)
    (fun i j hi hj hij => by
      rw [Finset.mem_Icc] at hi hj
      by_contra hne
      rcases Nat.lt_or_ge i j with hlt | hge
      · exact hInv.distinct i j hi.1 hlt hj.2 ⟨congrArg Prod.fst hij,
          congrArg Prod.snd hij⟩
      · have hlt : j < i := by omega
        exact hInv.distinct j i hj.1 hlt hi.2 ⟨(congrArg Prod.fst hij).symm,
          (congrArg Prod.snd hij).symm⟩)
    (by rw [Finset.card_product, Nat.card_Icc, Nat.card_Icc]; omega)
  obtain ⟨i, hi, hq⟩ := hsurj (x, y)
    (Finset.mem_product.mpr ⟨hxy.1, hxy.2⟩)
  rw [Finset.mem_Icc] at hi
  exact ⟨i, hi.1, hi.2, (congrArg Prod.fst hq).symm,
    (congrArg Prod.snd hq).symm⟩

/-- Invariant of the `GettingStarted()` double loop after processing the
cells in `done`: the trail enumerates exactly the clue cells of `done`
(with the reference digits and `m = 1`), and `Gtilde` marks them. -/
def GSInv (C s : ℕ → ℕ → ℕ) (done : List (ℕ × ℕ)) (st : MState) : Prop :=
  st.istar = (done.filter fun p => decide (C p.1 p.2 ≠ 0)).length ∧
  (∀ i, 1 ≤ i → i ≤ st.istar →
    st.m i = 1 ∧ st.n i 1 = s (st.r i) (st.c i) ∧
    C (st.r i) (st.c i) ≠ 0 ∧ (st.r i, st.c i) ∈ done) ∧
  (∀ p ∈ done, C p.1 p.2 ≠ 0 →
    ∃ i, 1 ≤ i ∧ i ≤ st.istar ∧ st.r i = p.1 ∧ st.c i = p.2) ∧
  (∀ i j, 1 ≤ i → i < j → j ≤ st.istar →
    ¬(st.r i = st.r j ∧ st.c i = st.c j)) ∧
  (∀ x y, st.Gtilde x y ≠ 0 ↔ ((x, y) ∈ done ∧ C x y ≠ 0))

theorem gsStep_inv (C s : ℕ → ℕ → ℕ) (done : List (ℕ × ℕ)) (st : MState)
    (p : ℕ × ℕ) (hp : p ∉ done) (h : GSInv C s done st) :
    GSInv C s (done ++ [p]) (gsStep C s st p) := by
  obtain ⟨hlen, hent, hcov, hdis, hgt⟩ := h
  by_cases hc : C p.1 p.2 ≠ 0
  · have hstep : gsStep C s st p =
        { istar := st.istar + 1
          Csize := st.Csize
          r := upd1 st.r (st.istar + 1) p.1
          c := upd1 st.c (st.istar + 1) p.2
          m := upd1 st.m (st.istar + 1) 1
          n := updRow st.n (st.istar + 1)
            (upd1 (st.n (st.istar + 1)) 1 (s p.1 p.2))
          Gtilde := Metro.update2 st.Gtilde p.1 p.2 1 } := by
      unfold gsStep
      rw [if_pos hc]
    rw [hstep]
    unfold GSInv
    dsimp only
    have hfp : (([p] : List (ℕ × ℕ)).filter
        fun q => decide (C q.1 q.2 ≠ 0)) = [p] := by
      simp [hc]
    refine ⟨?_, ?_, ?_, ?_, ?_⟩
    · show st.istar + 1 = _
      rw [List.filter_append, List.length_append, hfp, ← hlen]
      rfl
    · intro i h1 h2
      have h2' : i ≤ st.istar + 1 := h2
      by_cases hi : i = st.istar + 1
      · subst hi
        refine ⟨upd1_same _ _ _, ?_, ?_, ?_⟩
        · show updRow st.n (st.istar + 1) _ (st.istar + 1) 1 = _
          rw [updRow_same, upd1_same,
            upd1_same st.r (st.istar + 1) p.1,
            upd1_same st.c (st.istar + 1) p.2]
        · rw [upd1_same st.r (st.istar + 1) p.1,
            upd1_same st.c (st.istar + 1) p.2]
          exact hc
        · rw [upd1_same st.r (st.istar + 1) p.1,
            upd1_same st.c (st.istar + 1) p.2]
          exact List.mem_append_right _ (List.mem_singleton.mpr rfl)
      · have h2' : i ≤ st.istar := by omega
        obtain ⟨hm, hn, hC, hmem⟩ := hent i h1 h2'
        rw [upd1_other st.r _ _ _ hi, upd1_other st.c _ _ _ hi,
          upd1_other st.m _ _ _ hi, updRow_other st.n _ _ _ hi]
        exact ⟨hm, hn, hC, List.mem_append_left _ hmem⟩
    · intro q hq hCq
      rcases List.mem_append.mp hq with hq | hq
      · obtain ⟨i, h1, h2, hr, hcq⟩ := hcov q hq hCq
        refine ⟨i, h1, by omega, ?_, ?_⟩
        · rw [upd1_other st.r _ _ _ (by omega)]; exact hr
        · rw [upd1_other st.c _ _ _ (by omega)]; exact hcq
      · rw [List.mem_singleton] at hq
        subst hq
        exact ⟨st.istar + 1, by omega, le_refl _,
          upd1_same _ _ _, upd1_same _ _ _⟩
    · intro i j h1 h2 h3
      by_cases hj : j = st.istar + 1
      · subst hj
        rw [upd1_same st.r _ _, upd1_same st.c _ _,
          upd1_other st.r _ _ _ (by omega), upd1_other st.c _ _ _ (by omega)]
        intro hand
        obtain ⟨hm, hn, hC, hmem⟩ := hent i h1 (by omega)
        rw [hand.1, hand.2] at hmem
        exact hp hmem
      · have h3' : j ≤ st.istar := by omega
        rw [upd1_other st.r _ _ _ (by omega), upd1_other st.c _ _ _ (by omega),
          upd1_other st.r _ _ _ hj, upd1_other st.c _ _ _ hj]
        exact hdis i j h1 h2 h3'
    · intro x y
      by_cases hxy : x = p.1 ∧ y = p.2
      · obtain ⟨hx, hy⟩ := hxy
        subst hx; subst hy
        rw [Metro.update2_same]
        constructor
        · intro _
          exact ⟨List.mem_append_right _ (List.mem_singleton.mpr rfl), hc⟩
        · intro _
          omega
      · rw [Metro.update2_other _ _ _ _ _ _ hxy, hgt x y]
        constructor
        · rintro ⟨hmem, hC⟩
          exact ⟨List.mem_append_left _ hmem, hC⟩
        · rintro ⟨hmem, hC⟩
          rcases List.mem_append.mp hmem with hmem | hmem
          · exact ⟨hmem, hC⟩
          · rw [List.mem_singleton] at hmem
            exact absurd ⟨congrArg Prod.fst hmem, congrArg Prod.snd hmem⟩ hxy
  · have hstep : gsStep C s st p =
        { st with Gtilde := Metro.update2 st.Gtilde p.1 p.2 0 } := by
      unfold gsStep
      rw [if_neg hc]
    rw [hstep]
    unfold GSInv
    dsimp only
    have hfp : (([p] : List (ℕ × ℕ)).filter
        fun q => decide (C q.1 q.2 ≠ 0)) = [] := by
      simp [hc]
    refine ⟨?_, ?_, ?_, hdis, ?_⟩
    · show st.istar = _
      rw [List.filter_append, List.length_append, hfp, ← hlen]
      rfl
    · intro i h1 h2
      obtain ⟨hm, hn, hC, hmem⟩ := hent i h1 h2
      exact ⟨hm, hn, hC, List.mem_append_left _ hmem⟩
    · intro q hq hCq
      rcases List.mem_append.mp hq with hq | hq
      · exact hcov q hq hCq
      · rw [List.mem_singleton] at hq
        subst hq
        exact absurd hCq hc
    · intro x y
      by_cases hxy : x = p.1 ∧ y = p.2
      · obtain ⟨hx, hy⟩ := hxy
        subst hx; subst hy
        rw [Metro.update2_same]
        constructor
        · intro hh
          exact absurd rfl hh
        · rintro ⟨_, hC⟩
          exact absurd hC hc
      · rw [Metro.update2_other _ _ _ _ _ _ hxy, hgt x y]
        constructor
        · rintro ⟨hmem, hC⟩
          exact ⟨List.mem_append_left _ hmem, hC⟩
        · rintro ⟨hmem, hC⟩
          rcases List.mem_append.mp hmem with hmem | hmem
          · exact ⟨hmem, hC⟩
          · rw [List.mem_singleton] at hmem
            exact absurd ⟨congrArg Prod.fst hmem, congrArg Prod.snd hmem⟩ hxy

theorem gs_fold_full (C s : ℕ → ℕ → ℕ) :
    ∀ (rest done : List (ℕ × ℕ)), (done ++ rest).Nodup →
    ∀ st, GSInv C s done st →
    GSInv C s (done ++ rest) (rest.foldl (gsStep C s) st) := by
  intro rest
  induction rest with
  | nil =>
      intro done _ st h
      rw [List.append_nil]
      exact h
  | cons p t ih =>
      intro done hnd st h
      rw [List.foldl_cons]
      have hp : p ∉ done := by
        intro hmem
        exact (List.disjoint_of_nodup_append hnd) hmem
          (List.mem_cons_self p t)
      have hstep := gsStep_inv C s done st p hp h
      have hnd' : ((done ++ [p]) ++ t).Nodup := by
        rw [List.append_assoc, List.singleton_append]
        exact hnd
      have hres := ih (done ++ [p]) hnd' (gsStep C s st p) hstep
      rw [List.append_assoc, List.singleton_append] at hres
      exact hres

theorem initState_gsinv (C s : ℕ → ℕ → ℕ) : GSInv C s [] initState := by
  refine ⟨rfl, ?_, ?_, ?_, ?_⟩
  · intro i h1 h2
    have : i ≤ (0 : ℕ) := h2
    omega
  · intro q hq
    exact absurd hq (List.not_mem_nil q)
  · intro i j h1 h2 h3
    have : j ≤ (0 : ℕ) := h3
    omega
  · intro x y
    constructor
    · intro hh
      exact absurd rfl hh
    · rintro ⟨hmem, _⟩
      exact absurd hmem (List.not_mem_nil _)

/-- Full characterization of the state built by `GettingStarted()`. -/
theorem gettingStarted_main (C s : ℕ → ℕ → ℕ) :
    SInv C s (GettingStarted C s) ∧
    (GettingStarted C s).Csize = (GettingStarted C s).istar ∧
    (GettingStarted C s).istar =
      (cells1to9.filter fun p => decide (C p.1 p.2 ≠ 0)).length := by
  have hnodup : cells1to9.Nodup := by decide
  have hfold := gs_fold_full C s cells1to9 [] (by simpa using hnodup)
    initState (initState_gsinv C s)
  rw [List.nil_append] at hfold
  obtain ⟨hlen, hent, hcov, hdis, hgt⟩ := hfold
  have hCs : (GettingStarted C s).Csize
      = (cells1to9.foldl (gsStep C s) initState).istar := rfl
  have hist : (GettingStarted C s).istar
      = (cells1to9.foldl (gsStep C s) initState).istar := rfl
  have hr : (GettingStarted C s).r
      = (cells1to9.foldl (gsStep C s) initState).r := rfl
  have hcc : (GettingStarted C s).c
      = (cells1to9.foldl (gsStep C s) initState).c := rfl
  have hm : (GettingStarted C s).m
      = (cells1to9.foldl (gsStep C s) initState).m := rfl
  have hn : (GettingStarted C s).n
      = (cells1to9.foldl (gsStep C s) initState).n := rfl
  have hG : (GettingStarted C s).Gtilde
      = (cells1to9.foldl (gsStep C s) initState).Gtilde := rfl
  refine ⟨?_, by rw [hCs, hist], by rw [hist, hlen]⟩
  constructor
  case csize_le => rw [hCs, hist]
  case istar_le =>
      rw [hist, hlen]
      calc (cells1to9.filter fun p => decide (C p.1 p.2 ≠ 0)).length
          ≤ cells1to9.length := List.length_filter_le _ _
        _ = 81 := by decide
  case cell_mem =>
      intro i h1 h2
      rw [hist] at h2
      rw [hr, hcc]
      obtain ⟨_, _, _, hmem⟩ := hent i h1 h2
      have := (mem_cells1to9 _ _).mp hmem
      rw [inGrid_iff]
      exact this
  case distinct =>
      intro i j h1 h2 h3
      rw [hist] at h3
      rw [hr, hcc]
      exact hdis i j h1 h2 h3
  case gtilde_iff =>
      intro x y hxy
      rw [hG, hr, hcc, hist, hgt x y]
      constructor
      · rintro ⟨_, hC⟩
        obtain ⟨i, hi1, hi2, hri, hci⟩ := hcov (x, y)
          ((mem_cells1to9 x y).mpr ((inGrid_iff x y).mp hxy)) hC
        exact ⟨i, hi1, hi2, hri, hci⟩
      · rintro ⟨i, hi1, hi2, hri, hci⟩
        obtain ⟨_, _, hC, hmem⟩ := hent i hi1 hi2
        rw [hri, hci] at hC hmem
        exact ⟨(mem_cells1to9 x y).mpr ((inGrid_iff x y).mp hxy), hC⟩
  case clue_entry =>
      intro i h1 h2
      rw [hCs] at h2
      rw [hr, hcc, hm, hn]
      obtain ⟨ha, hb, hc', _⟩ := hent i h1 h2
      exact ⟨ha, hb, hc'⟩
  case clue_cover =>
      intro x y hxy hC
      rw [hCs, hr, hcc]
      exact hcov (x, y) ((mem_cells1to9 x y).mpr ((inGrid_iff x y).mp hxy)) hC
  case m_pos =>
      intro i hlt hle
      rw [hCs] at hlt
      rw [hist] at hle
      omega
  case cand_range =>
      intro i j hlt hle _ _
      rw [hCs] at hlt
      rw [hist] at hle
      omega
  case cand_consistent =>
      intro i j hlt hle _ _
      rw [hCs] at hlt
      rw [hist] at hle
      omega
  case cand_mono =>
      intro i j k hlt hle _ _ _
      rw [hCs] at hlt
      rw [hist] at hle
      omega

/-- With the clue trail in place, the to-do set is the full completion set. -/
theorem td_init (C s : ℕ → ℕ → ℕ) (st0 : MState) (hInv : SInv C s st0)
    (heq : st0.Csize = st0.istar) (g : ℕ → ℕ → ℕ) :
    TDmem C s 1 st0 g ↔ IsCompletion C s g := by
  constructor
  · rintro (⟨_, hg, _⟩ | ⟨i, _, _, hg, _⟩)
    · exact hg
    · exact hg
  · intro hg
    left
    refine ⟨rfl, hg, ?_⟩
    intro i h1 h2
    have hi : i ≤ st0.Csize := by omega
    obtain ⟨hm, hn, hC⟩ := hInv.clue_entry i h1 hi
    rw [hm, hn]
    exact hg.2.1 (st0.r i) (hInv.cell_mem i h1 h2).1
      (st0.c i) (hInv.cell_mem i h1 h2).2 hC

theorem agrees_congr (st' st : MState) (k : ℕ)
    (hr : ∀ i, 1 ≤ i → i ≤ k → st'.r i = st.r i)
    (hc : ∀ i, 1 ≤ i → i ≤ k → st'.c i = st.c i)
    (hnm : ∀ i, 1 ≤ i → i ≤ k → st'.n i (st'.m i) = st.n i (st.m i))
    (g : ℕ → ℕ → ℕ) : Agrees st' k g ↔ Agrees st k g := by
  constructor
  · intro h i h1 h2
    rw [← hr i h1 h2, ← hc i h1 h2, ← hnm i h1 h2]
    exact h i h1 h2
  · intro h i h1 h2
    rw [hr i h1 h2, hc i h1 h2, hnm i h1 h2]
    exact h i h1 h2

theorem retreat_preserves (C s : ℕ → ℕ → ℕ) (st : MState)
    (hInv : SInv C s st) :
    (st.istar = st.Csize ∧ RetreatF st = (st, 0)) ∨
    (SInv C s (RetreatF st).1 ∧ (RetreatF st).1.Csize = st.Csize ∧
      ((RetreatF st).2 = 1 ∨ (RetreatF st).2 = 2) ∧
      (∀ g, TDmem C s (RetreatF st).2 (RetreatF st).1 g ↔
        TDmem C s 2 st g)) := by
  by_cases hstop : st.istar = st.Csize
  · left
    refine ⟨hstop, ?_⟩
    unfold RetreatF
    rw [if_pos hstop]
  · right
    have hlt : st.Csize < st.istar := by
      have := hInv.csize_le
      omega
    by_cases hm : 1 < st.m st.istar
    · -- Case 1: try the next candidate at the deepest entry.
      have hR : RetreatF st =
          ({ st with m := upd1 st.m st.istar (st.m st.istar - 1) }, 1) := by
        unfold RetreatF
        rw [if_neg hstop, if_pos hm]
      rw [hR]
      dsimp only
      have hm_other : ∀ i, i ≠ st.istar →
          upd1 st.m st.istar (st.m st.istar - 1) i = st.m i :=
        fun i hi => upd1_other st.m st.istar (st.m st.istar - 1) i hi
      have hcongr : ∀ x y v k, k ≤ st.istar - 1 →
          ConsistentF { st with m := upd1 st.m st.istar (st.m st.istar - 1) }
              x y v k = ConsistentF st x y v k := by
        intro x y v k hk
        refine consistentF_congr
          { st with m := upd1 st.m st.istar (st.m st.istar - 1) } st x y v k
          (fun _ _ _ => rfl) (fun _ _ _ => rfl) ?_
        intro i h1 h2
        show st.n i (upd1 st.m st.istar (st.m st.istar - 1) i) = _
        rw [hm_other i (by omega)]
      have hagr : ∀ k, k ≤ st.istar - 1 →
          ∀ g, (Agrees { st with m := upd1 st.m st.istar (st.m st.istar - 1) }
            k g ↔ Agrees st k g) := by
        intro k hk g
        refine agrees_congr
          { st with m := upd1 st.m st.istar (st.m st.istar - 1) } st k
          (fun _ _ _ => rfl) (fun _ _ _ => rfl) ?_ g
        intro i h1 h2
        show st.n i (upd1 st.m st.istar (st.m st.istar - 1) i) = _
        rw [hm_other i (by omega)]
      refine ⟨?_, rfl, Or.inl rfl, ?_⟩
      · refine ⟨?_, ?_, ?_, ?_, ?_, ?_, ?_, ?_, ?_, ?_, ?_⟩
        · exact hInv.csize_le
        · exact hInv.istar_le
        · exact hInv.cell_mem
        · exact hInv.distinct
        · exact hInv.gtilde_iff
        · intro i h1 h2
          have h2' : i ≤ st.Csize := h2
          obtain ⟨ha, hb, hc'⟩ := hInv.clue_entry i h1 h2'
          refine ⟨?_, hb, hc'⟩
          show upd1 st.m st.istar (st.m st.istar - 1) i = 1
          rw [hm_other i (by omega)]
          exact ha
        · exact hInv.clue_cover
        · intro i hlt' hle
          have hle' : i ≤ st.istar := hle
          have hlt'' : st.Csize < i := hlt'
          show 1 ≤ upd1 st.m st.istar (st.m st.istar - 1) i
          by_cases hi : i = st.istar
          · subst hi
            rw [upd1_same]
            omega
          · rw [hm_other i hi]
            exact hInv.m_pos i hlt'' hle'
        · intro i j hlt' hle hj1 hj2
          have hle' : i ≤ st.istar := hle
          have hlt'' : st.Csize < i := hlt'
          by_cases hi : i = st.istar
          · subst hi
            have hj2' : j ≤ st.m st.istar - 1 := by
              have hj2'' : j ≤ upd1 st.m st.istar (st.m st.istar - 1)
                  st.istar := hj2
              rw [upd1_same] at hj2''
              exact hj2''
            exact hInv.cand_range st.istar j hlt'' hle' hj1 (by omega)
          · have hj2' : j ≤ st.m i := by
              have hj2'' : j ≤ upd1 st.m st.istar (st.m st.istar - 1) i :=
                hj2
              rw [hm_other i hi] at hj2''
              exact hj2''
            exact hInv.cand_range i j hlt'' hle' hj1 hj2'
        · intro i j hlt' hle hj1 hj2
          have hle' : i ≤ st.istar := hle
          have hlt'' : st.Csize < i := hlt'
          show ConsistentF _ (st.r i) (st.c i) (st.n i j) (i - 1) = true
          rw [hcongr _ _ _ _ (by omega)]
          by_cases hi : i = st.istar
          · subst hi
            have hj2' : j ≤ st.m st.istar - 1 := by
              have hj2'' : j ≤ upd1 st.m st.istar (st.m st.istar - 1)
                  st.istar := hj2
              rw [upd1_same] at hj2''
              exact hj2''
            exact hInv.cand_consistent st.istar j hlt'' hle' hj1 (by omega)
          · have hj2' : j ≤ st.m i := by
              have hj2'' : j ≤ upd1 st.m st.istar (st.m st.istar - 1) i :=
                hj2
              rw [hm_other i hi] at hj2''
              exact hj2''
            exact hInv.cand_consistent i j hlt'' hle' hj1 hj2'
        · intro i j k hlt' hle hj1 hjk hk
          have hle' : i ≤ st.istar := hle
          have hlt'' : st.Csize < i := hlt'
          by_cases hi : i = st.istar
          · subst hi
            have hk' : k ≤ st.m st.istar - 1 := by
              have hk'' : k ≤ upd1 st.m st.istar (st.m st.istar - 1)
                  st.istar := hk
              rw [upd1_same] at hk''
              exact hk''
            exact hInv.cand_mono st.istar j k hlt'' hle' hj1 hjk (by omega)
          · have hk' : k ≤ st.m i := by
              have hk'' : k ≤ upd1 st.m st.istar (st.m st.istar - 1) i := hk
              rw [hm_other i hi] at hk''
              exact hk''
            exact hInv.cand_mono i j k hlt'' hle' hj1 hjk hk'
      · -- To-do set preservation for the decrement step.
        intro g
        constructor
        · rintro (⟨_, hg, hagr'⟩ | ⟨i, hi1, hi2, hg, hagr', j, hj1, hj2, hd⟩)
          · -- the new branch head corresponds to sibling m[istar]-1
            right
            refine ⟨st.istar, hlt, le_refl _, hg, ?_, st.m st.istar - 1,
              by omega, by omega, ?_⟩
            · intro i h1 h2
              have hx := hagr' i h1 (by show i ≤ st.istar; omega)
              have hx' : g (st.r i) (st.c i)
                  = st.n i (upd1 st.m st.istar (st.m st.istar - 1) i) := hx
              rw [hm_other i (by omega)] at hx'
              exact hx'
            · have hx := hagr' st.istar (by omega)
                (by show st.istar ≤ st.istar; omega)
              have hx' : g (st.r st.istar) (st.c st.istar)
                  = st.n st.istar
                    (upd1 st.m st.istar (st.m st.istar - 1) st.istar) := hx
              rw [upd1_same] at hx'
              exact hx'
          · have hi2' : i ≤ st.istar := hi2
            have hi1' : st.Csize < i := hi1
            by_cases hi : i = st.istar
            · subst hi
              have hj2' : j < st.m st.istar - 1 := by
                have hj2'' : j < upd1 st.m st.istar (st.m st.istar - 1)
                    st.istar := hj2
                rw [upd1_same] at hj2''
                exact hj2''
              right
              refine ⟨st.istar, hi1', hi2', hg, ?_, j, hj1, by omega, hd⟩
              rw [← hagr _ (by omega) g]
              exact hagr'
            · have hj2' : j < st.m i := by
                have hj2'' : j < upd1 st.m st.istar (st.m st.istar - 1) i :=
                  hj2
                rw [hm_other i hi] at hj2''
                exact hj2''
              right
              refine ⟨i, hi1', hi2', hg, ?_, j, hj1, hj2', hd⟩
              rw [← hagr _ (by omega) g]
              exact hagr'
        · rintro (⟨h21, _⟩ | ⟨i, hi1, hi2, hg, hagr', j, hj1, hj2, hd⟩)
          · exact absurd h21 (by omega)
          · by_cases hi : i = st.istar
            · subst hi
              by_cases hj : j = st.m st.istar - 1
              · -- this sibling becomes the new branch head
                left
                refine ⟨rfl, hg, ?_⟩
                intro i' h1 h2
                have h2' : i' ≤ st.istar := h2
                by_cases hi' : i' = st.istar
                · subst hi'
                  show g (st.r st.istar) (st.c st.istar) = st.n st.istar
                    (upd1 st.m st.istar (st.m st.istar - 1) st.istar)
                  rw [upd1_same, hd, hj]
                · show g (st.r i') (st.c i') = st.n i'
                    (upd1 st.m st.istar (st.m st.istar - 1) i')
                  rw [hm_other i' hi']
                  exact hagr' i' h1 (by omega)
              · right
                refine ⟨st.istar, hi1, hi2, hg, ?_, j, hj1, ?_, hd⟩
                · rw [hagr _ (by omega) g]
                  exact hagr'
                · show j < upd1 st.m st.istar (st.m st.istar - 1) st.istar
                  rw [upd1_same]
                  omega
            · right
              have hi2' : i ≤ st.istar := hi2
              refine ⟨i, hi1, hi2', hg, ?_, j, hj1, ?_, hd⟩
              · rw [hagr _ (by omega) g]
                exact hagr'
              · show j < upd1 st.m st.istar (st.m st.istar - 1) i
                rw [hm_other i hi]
                exact hj2
    · -- Case 2: pop the deepest entry.
      have hm1 : st.m st.istar = 1 := by
        have := hInv.m_pos st.istar hlt (le_refl _)
        omega
      have hR : RetreatF st =
          ({ st with
              Gtilde := Metro.update2 st.Gtilde (st.r st.istar)
                (st.c st.istar) 0,
              istar := st.istar - 1 }, 2) := by
        unfold RetreatF
        rw [if_neg hstop, if_neg hm]
      rw [hR]
      dsimp only
      refine ⟨?_, rfl, Or.inr rfl, ?_⟩
      · refine ⟨?_, ?_, ?_, ?_, ?_, ?_, ?_, ?_, ?_, ?_, ?_⟩
        · show st.Csize ≤ st.istar - 1
          omega
        · show st.istar - 1 ≤ 81
          have := hInv.istar_le
          omega
        · intro i h1 h2
          have h2' : i ≤ st.istar - 1 := h2
          exact hInv.cell_mem i h1 (by omega)
        · intro i j h1 h2 h3
          have h3' : j ≤ st.istar - 1 := h3
          exact hInv.distinct i j h1 h2 (by omega)
        · intro x y hxy
          by_cases hc : x = st.r st.istar ∧ y = st.c st.istar
          · obtain ⟨hcx, hcy⟩ := hc
            subst hcx; subst hcy
            show Metro.update2 st.Gtilde (st.r st.istar) (st.c st.istar) 0
                (st.r st.istar) (st.c st.istar) ≠ 0 ↔ _
            rw [Metro.update2_same]
            constructor
            · intro hh
              exact absurd rfl hh
            · rintro ⟨i, h1, h2, hri, hci⟩
              have h2' : i ≤ st.istar - 1 := h2
              exact absurd ⟨hri, hci⟩
                (hInv.distinct i st.istar h1 (by omega) (le_refl _))
          · show Metro.update2 st.Gtilde (st.r st.istar) (st.c st.istar) 0
                x y ≠ 0 ↔ _
            rw [Metro.update2_other _ _ _ _ _ _ hc,
              hInv.gtilde_iff x y hxy]
            constructor
            · rintro ⟨i, h1, h2, hri, hci⟩
              refine ⟨i, h1, ?_, hri, hci⟩
              show i ≤ st.istar - 1
              rcases Nat.lt_or_ge i st.istar with hio | hio
              · omega
              · have hieq : i = st.istar := by omega
                subst hieq
                exact absurd ⟨hri.symm, hci.symm⟩ hc
            · rintro ⟨i, h1, h2, hri, hci⟩
              have h2' : i ≤ st.istar - 1 := h2
              exact ⟨i, h1, by omega, hri, hci⟩
        · exact hInv.clue_entry
        · exact hInv.clue_cover
        · intro i hlt' hle
          have hle' : i ≤ st.istar - 1 := hle
          exact hInv.m_pos i hlt' (by omega)
        · intro i j hlt' hle hj1 hj2
          have hle' : i ≤ st.istar - 1 := hle
          exact hInv.cand_range i j hlt' (by omega) hj1 hj2
        · intro i j hlt' hle hj1 hj2
          have hle' : i ≤ st.istar - 1 := hle
          exact hInv.cand_consistent i j hlt' (by omega) hj1 hj2
        · intro i j k hlt' hle hj1 hjk hk
          have hle' : i ≤ st.istar - 1 := hle
          exact hInv.cand_mono i j k hlt' (by omega) hj1 hjk hk
      · -- To-do set preservation for the pop step.
        intro g
        constructor
        · rintro (⟨h21, _⟩ | ⟨i, hi1, hi2, hg, hagr', j, hj1, hj2, hd⟩)
          · exact absurd h21 (by omega)
          · have hi2' : i ≤ st.istar - 1 := hi2
            exact Or.inr ⟨i, hi1, by omega, hg, hagr', j, hj1, hj2, hd⟩
        · rintro (⟨h21, _⟩ | ⟨i, hi1, hi2, hg, hagr', j, hj1, hj2, hd⟩)
          · exact absurd h21 (by omega)
          · by_cases hi : i = st.istar
            · subst hi
              rw [hm1] at hj2
              omega
            · have hi2' : i ≤ st.istar := hi2
              exact Or.inr ⟨i, hi1,
                (by show i ≤ st.istar - 1; omega), hg, hagr', j, hj1,
                hj2, hd⟩

/-- No completion extends the current branch once some free cell has no
consistent digit left. -/
theorem ext_empty_of_zero_count (C s : ℕ → ℕ → ℕ) (st : MState)
    (hInv : SInv C s st) (x y : ℕ) (hxy : inGrid x y)
    (hfree : st.Gtilde x y = 0) (hcount : countConsistent st x y = 0)
    (g : ℕ → ℕ → ℕ) (hg : IsCompletion C s g)
    (hagr : Agrees st st.istar g) : False := by
  have hcons := completion_digit_consistent C s st hInv g hg hagr x y hxy
    hfree
  have hrange := hg.1.1 x hxy.1 y hxy.2
  have hmem := (mem_candList st x y (g x y)).mpr
    ⟨hrange.1, hrange.2, hcons⟩
  have hne : ((List.range' 1 9).filter
      fun v => ConsistentF st x y v st.istar) ≠ [] :=
    List.ne_nil_of_mem hmem
  have hlenpos : 0 < ((List.range' 1 9).filter
      fun v => ConsistentF st x y v st.istar).length :=
    List.length_pos.mpr hne
  have hne0 : countConsistent st x y ≠ 0 := by
    unfold countConsistent
    omega
  exact hne0 hcount

/-- The state produced by a successful `Advance()` push, abstracting over
the candidate row written at the new trail entry. -/
def pushState (st : MState) (rp cp mp : ℕ) (row : ℕ → ℕ) : MState :=
  { istar := st.istar + 1
    Csize := st.Csize
    r := upd1 st.r (st.istar + 1) rp
    c := upd1 st.c (st.istar + 1) cp
    m := upd1 st.m (st.istar + 1) mp
    n := updRow st.n (st.istar + 1) row
    Gtilde := Metro.update2 st.Gtilde rp cp 1 }

theorem pushState_istar (st : MState) (rp cp mp : ℕ) (row : ℕ → ℕ) :
    (pushState st rp cp mp row).istar = st.istar + 1 := rfl

theorem pushState_Csize (st : MState) (rp cp mp : ℕ) (row : ℕ → ℕ) :
    (pushState st rp cp mp row).Csize = st.Csize := rfl

theorem pushState_r (st : MState) (rp cp mp : ℕ) (row : ℕ → ℕ) :
    (pushState st rp cp mp row).r = upd1 st.r (st.istar + 1) rp := rfl

theorem pushState_c (st : MState) (rp cp mp : ℕ) (row : ℕ → ℕ) :
    (pushState st rp cp mp row).c = upd1 st.c (st.istar + 1) cp := rfl

theorem pushState_m (st : MState) (rp cp mp : ℕ) (row : ℕ → ℕ) :
    (pushState st rp cp mp row).m = upd1 st.m (st.istar + 1) mp := rfl

theorem pushState_n (st : MState) (rp cp mp : ℕ) (row : ℕ → ℕ) :
    (pushState st rp cp mp row).n = updRow st.n (st.istar + 1) row := rfl

theorem pushState_G (st : MState) (rp cp mp : ℕ) (row : ℕ → ℕ) :
    (pushState st rp cp mp row).Gtilde
      = Metro.update2 st.Gtilde rp cp 1 := rfl

theorem pushState_agrees (st : MState) (rp cp mp : ℕ) (row : ℕ → ℕ)
    (k : ℕ) (hk : k ≤ st.istar) (g : ℕ → ℕ → ℕ) :
    Agrees (pushState st rp cp mp row) k g ↔ Agrees st k g := by
  refine agrees_congr (pushState st rp cp mp row) st k ?_ ?_ ?_ g
  · intro i h1 h2
    show upd1 st.r (st.istar + 1) rp i = st.r i
    rw [upd1_other st.r _ _ _ (by omega)]
  · intro i h1 h2
    show upd1 st.c (st.istar + 1) cp i = st.c i
    rw [upd1_other st.c _ _ _ (by omega)]
  · intro i h1 h2
    show updRow st.n (st.istar + 1) row i
        (upd1 st.m (st.istar + 1) mp i) = st.n i (st.m i)
    rw [updRow_other st.n _ _ _ (by omega),
      upd1_other st.m _ _ _ (by omega)]

theorem pushState_consistentF (st : MState) (rp cp mp : ℕ) (row : ℕ → ℕ)
    (x y v k : ℕ) (hk : k ≤ st.istar) :
    ConsistentF (pushState st rp cp mp row) x y v k
      = ConsistentF st x y v k := by
  refine consistentF_congr (pushState st rp cp mp row) st x y v k ?_ ?_ ?_
  · intro i h1 h2
    show upd1 st.r (st.istar + 1) rp i = st.r i
    rw [upd1_other st.r _ _ _ (by omega)]
  · intro i h1 h2
    show upd1 st.c (st.istar + 1) cp i = st.c i
    rw [upd1_other st.c _ _ _ (by omega)]
  · intro i h1 h2
    show updRow st.n (st.istar + 1) row i
        (upd1 st.m (st.istar + 1) mp i) = st.n i (st.m i)
    rw [updRow_other st.n _ _ _ (by omega),
      upd1_other st.m _ _ _ (by omega)]

theorem advance_preserves (C s : ℕ → ℕ → ℕ) (st : MState)
    (hInv : SInv C s st) :
    (st.istar = 81 ∧ AdvanceF st = (st, 0)) ∨
    (SInv C s (AdvanceF st).1 ∧ (AdvanceF st).1.Csize = st.Csize ∧
      ((AdvanceF st).2 = 1 ∨ (AdvanceF st).2 = 2) ∧
      (∀ g, TDmem C s (AdvanceF st).2 (AdvanceF st).1 g ↔
        TDmem C s 1 st g)) := by
  by_cases h81 : st.istar = 81
  · left
    refine ⟨h81, ?_⟩
    unfold AdvanceF
    rw [if_pos h81]
  · right
    have histar80 : st.istar ≤ 80 := by
      have := hInv.istar_le
      omega
    obtain ⟨qx, qy, hqgrid, hqfree⟩ := exists_free_cell C s st hInv histar80
    have hqmem : (qx, qy) ∈ cells1to9 :=
      (mem_cells1to9 qx qy).mpr ((inGrid_iff qx qy).mp hqgrid)
    cases hscan : scanCells st cells1to9 10 0 0 with
    | none =>
        have hA : AdvanceF st = (st, 2) := by
          unfold AdvanceF
          rw [if_neg h81, hscan]
        rw [hA]
        dsimp only
        obtain ⟨q0, hq0L, hq0free, hq0cnt⟩ :=
          (scan_none_iff st cells1to9 10 0 0 (by omega)).mp hscan
        obtain ⟨q0x, q0y⟩ := q0
        have hq0grid : inGrid q0x q0y :=
          (inGrid_iff q0x q0y).mpr ((mem_cells1to9 q0x q0y).mp hq0L)
        refine ⟨hInv, rfl, Or.inr rfl, ?_⟩
        intro g
        constructor
        · rintro (⟨h21, _⟩ | hsib)
          · exact absurd h21 (by omega)
          · exact Or.inr hsib
        · rintro (⟨_, hg, hagr⟩ | hsib)
          · exact absurd (ext_empty_of_zero_count C s st hInv q0x q0y
              hq0grid hq0free hq0cnt g hg hagr) not_false
          · exact Or.inr hsib
    | some res =>
        obtain ⟨mp, rp, cp⟩ := res
        obtain ⟨hmin, hle10, hres⟩ :=
          scan_some_spec st cells1to9 10 0 0 (mp, rp, cp) hscan
        have hpos : 0 < mp :=
          scan_some_pos st cells1to9 10 0 0 (mp, rp, cp) (by omega) hscan
        have hmp9 : mp ≤ 9 :=
          le_trans (hmin (qx, qy) hqmem hqfree)
            (countConsistent_le_nine st qx qy)
        rcases hres with h10 | ⟨hin, hfr, hcnt⟩
        · have hmp10 : mp = 10 := congrArg Prod.fst h10
          omega
        · have hin' : (rp, cp) ∈ cells1to9 := hin
          have hfr' : st.Gtilde rp cp = 0 := hfr
          have hcnt' : countConsistent st rp cp = mp := hcnt
          have hrploc := (mem_cells1to9 rp cp).mp hin'
          have hrpgrid : inGrid rp cp := (inGrid_iff rp cp).mpr hrploc
          have hA : AdvanceF st =
              (pushState st rp cp mp
                (fillRow (st.n (st.istar + 1))
                  ((List.range' 1 9).filter fun v =>
                    ConsistentF st rp cp v st.istar)).1, 1) := by
            unfold AdvanceF pushState
            rw [if_neg h81, hscan]
          rw [hA]
          dsimp only
          have hLlen : ((List.range' 1 9).filter fun v =>
              ConsistentF st rp cp v st.istar).length = mp := hcnt'
          have hrow : ∀ j, 1 ≤ j → j ≤ mp →
              (pushState st rp cp mp
                (fillRow (st.n (st.istar + 1))
                  ((List.range' 1 9).filter fun v =>
                    ConsistentF st rp cp v st.istar)).1).n (st.istar + 1) j
              = ((List.range' 1 9).filter fun v =>
                  ConsistentF st rp cp v st.istar).getD (j - 1) 0 := by
            intro j h1 h2
            rw [pushState_n, updRow_same]
            exact fillRow_get (st.n (st.istar + 1)) _ j h1 (by omega)
          have hLsorted : ((List.range' 1 9).filter fun v =>
              ConsistentF st rp cp v st.istar).Pairwise (· < ·) :=
            List.Pairwise.filter _ (by decide)
          have hnotrail : ∀ i, 1 ≤ i → i ≤ st.istar →
              ¬(st.r i = rp ∧ st.c i = cp) := by
            intro i h1 h2 hand
            exact (hInv.gtilde_iff rp cp hrpgrid).mpr
              ⟨i, h1, h2, hand.1, hand.2⟩ hfr'
          refine ⟨?_, rfl, Or.inl rfl, ?_⟩
          · refine ⟨?_, ?_, ?_, ?_, ?_, ?_, ?_, ?_, ?_, ?_, ?_⟩
            · rw [pushState_Csize, pushState_istar]
              have := hInv.csize_le
              omega
            · rw [pushState_istar]
              omega
            · intro i h1 h2
              rw [pushState_istar] at h2
              rw [pushState_r, pushState_c]
              by_cases hi : i = st.istar + 1
              · subst hi
                rw [upd1_same, upd1_same]
                exact hrpgrid
              · rw [upd1_other st.r _ _ _ hi, upd1_other st.c _ _ _ hi]
                exact hInv.cell_mem i h1 (by omega)
            · intro i j h1 h2 h3
              rw [pushState_istar] at h3
              rw [pushState_r, pushState_c]
              by_cases hj : j = st.istar + 1
              · subst hj
                rw [upd1_same, upd1_same,
                  upd1_other st.r _ _ _ (by omega),
                  upd1_other st.c _ _ _ (by omega)]
                exact hnotrail i h1 (by omega)
              · rw [upd1_other st.r _ _ _ hj, upd1_other st.c _ _ _ hj,
                  upd1_other st.r _ _ _ (by omega),
                  upd1_other st.c _ _ _ (by omega)]
                exact hInv.distinct i j h1 h2 (by omega)
            · intro x y hxy
              rw [pushState_istar, pushState_r, pushState_c, pushState_G]
              by_cases hxyc : x = rp ∧ y = cp
              · obtain ⟨hx, hy⟩ := hxyc
                subst hx; subst hy
                rw [Metro.update2_same]
                constructor
                · intro _
                  exact ⟨st.istar + 1, by omega, le_refl _,
                    upd1_same _ _ _, upd1_same _ _ _⟩
                · intro _
                  omega
              · rw [Metro.update2_other _ _ _ _ _ _ hxyc,
                  hInv.gtilde_iff x y hxy]
                constructor
                · rintro ⟨i, h1, h2, hri, hci⟩
                  refine ⟨i, h1, by omega, ?_, ?_⟩
                  · rw [upd1_other st.r _ _ _ (by omega)]
                    exact hri
                  · rw [upd1_other st.c _ _ _ (by omega)]
                    exact hci
                · rintro ⟨i, h1, h2, hri, hci⟩
                  by_cases hi : i = st.istar + 1
                  · subst hi
                    rw [upd1_same] at hri
                    rw [upd1_same] at hci
                    exact absurd ⟨hri.symm, hci.symm⟩ hxyc
                  · rw [upd1_other st.r _ _ _ hi] at hri
                    rw [upd1_other st.c _ _ _ hi] at hci
                    exact ⟨i, h1, by omega, hri, hci⟩
            · intro i h1 h2
              rw [pushState_Csize] at h2
              have hiold : i ≤ st.istar := by
                have := hInv.csize_le
                omega
              rw [pushState_r, pushState_c, pushState_m, pushState_n,
                upd1_other st.r _ _ _ (by omega),
                upd1_other st.c _ _ _ (by omega),
                upd1_other st.m _ _ _ (by omega),
                updRow_other st.n _ _ _ (by omega)]
              exact hInv.clue_entry i h1 h2
            · intro x y hxy hC
              obtain ⟨i, h1, h2, hri, hci⟩ := hInv.clue_cover x y hxy hC
              have hiold : i ≤ st.istar := by
                have := hInv.csize_le
                omega
              rw [pushState_Csize, pushState_r, pushState_c]
              refine ⟨i, h1, h2, ?_, ?_⟩
              · rw [upd1_other st.r _ _ _ (by omega)]
                exact hri
              · rw [upd1_other st.c _ _ _ (by omega)]
                exact hci
            · intro i hlt' hle
              rw [pushState_Csize] at hlt'
              rw [pushState_istar] at hle
              rw [pushState_m]
              by_cases hi : i = st.istar + 1
              · subst hi
                rw [upd1_same]
                omega
              · rw [upd1_other st.m _ _ _ hi]
                exact hInv.m_pos i hlt' (by omega)
            · intro i j hlt' hle hj1 hj2
              rw [pushState_Csize] at hlt'
              rw [pushState_istar] at hle
              rw [pushState_m] at hj2
              by_cases hi : i = st.istar + 1
              · subst hi
                rw [upd1_same] at hj2
                rw [hrow j hj1 hj2]
                have hjlt : j - 1 < ((List.range' 1 9).filter fun v =>
                    ConsistentF st rp cp v st.istar).length := by omega
                rw [List.getD_eq_getElem _ _ hjlt]
                have hmem := List.getElem_mem hjlt
                rw [mem_candList] at hmem
                exact ⟨hmem.1, hmem.2.1⟩
              · rw [upd1_other st.m _ _ _ hi] at hj2
                rw [pushState_n, updRow_other st.n _ _ _ hi]
                exact hInv.cand_range i j hlt' (by omega) hj1 hj2
            · intro i j hlt' hle hj1 hj2
              rw [pushState_Csize] at hlt'
              rw [pushState_istar] at hle
              rw [pushState_m] at hj2
              by_cases hi : i = st.istar + 1
              · subst hi
                rw [upd1_same] at hj2
                have hred : st.istar + 1 - 1 = st.istar := rfl
                rw [hrow j hj1 hj2, pushState_r, pushState_c, hred,
                  upd1_same, upd1_same,
                  pushState_consistentF st rp cp mp _ _ _ _ _ (le_refl _)]
                have hjlt : j - 1 < ((List.range' 1 9).filter fun v =>
                    ConsistentF st rp cp v st.istar).length := by omega
                rw [List.getD_eq_getElem _ _ hjlt]
                have hmem := List.getElem_mem hjlt
                rw [mem_candList] at hmem
                exact hmem.2.2
              · rw [upd1_other st.m _ _ _ hi] at hj2
                rw [pushState_r, pushState_c, pushState_n,
                  upd1_other st.r _ _ _ hi, upd1_other st.c _ _ _ hi,
                  updRow_other st.n _ _ _ hi,
                  pushState_consistentF st rp cp mp _ _ _ _ _ (by omega)]
                exact hInv.cand_consistent i j hlt' (by omega) hj1 hj2
            · intro i j k hlt' hle hj1 hjk hk
              rw [pushState_Csize] at hlt'
              rw [pushState_istar] at hle
              rw [pushState_m] at hk
              by_cases hi : i = st.istar + 1
              · subst hi
                rw [upd1_same] at hk
                rw [hrow j hj1 (by omega), hrow k (by omega) hk]
                have hjlt : j - 1 < ((List.range' 1 9).filter fun v =>
                    ConsistentF st rp cp v st.istar).length := by omega
                have hklt : k - 1 < ((List.range' 1 9).filter fun v =>
                    ConsistentF st rp cp v st.istar).length := by omega
                rw [List.getD_eq_getElem _ _ hjlt,
                  List.getD_eq_getElem _ _ hklt]
                exact (List.pairwise_iff_getElem.mp hLsorted) _ _ hjlt hklt
                  (by omega)
              · rw [upd1_other st.m _ _ _ hi] at hk
                rw [pushState_n, updRow_other st.n _ _ _ hi]
                exact hInv.cand_mono i j k hlt' (by omega) hj1 hjk hk
          · -- To-do set preservation for the push step.
            intro g
            constructor
            · rintro (⟨_, hg, hagr'⟩ | ⟨i, hi1, hi2, hg, hagr', j, hj1,
                hj2, hd⟩)
              · left
                refine ⟨rfl, hg, ?_⟩
                exact (pushState_agrees st rp cp mp _ st.istar (le_refl _)
                  g).mp (fun i h1 h2 => hagr' i h1 (by
                    rw [pushState_istar]
                    omega))
              · rw [pushState_istar] at hi2
                rw [pushState_Csize] at hi1
                by_cases hi : i = st.istar + 1
                · subst hi
                  left
                  refine ⟨rfl, hg, ?_⟩
                  have hred : st.istar + 1 - 1 = st.istar := rfl
                  rw [hred] at hagr'
                  exact (pushState_agrees st rp cp mp _ st.istar
                    (le_refl _) g).mp hagr'
                · right
                  have hiold : i ≤ st.istar := by omega
                  rw [pushState_m, upd1_other st.m _ _ _ hi] at hj2
                  rw [pushState_r, pushState_c, pushState_n,
                    upd1_other st.r _ _ _ hi, upd1_other st.c _ _ _ hi,
                    updRow_other st.n _ _ _ hi] at hd
                  refine ⟨i, hi1, hiold, hg, ?_, j, hj1, hj2, hd⟩
                  exact (pushState_agrees st rp cp mp _ (i - 1)
                    (by omega) g).mp hagr'
            · rintro (⟨_, hg, hagr'⟩ | ⟨i, hi1, hi2, hg, hagr', j, hj1,
                hj2, hd⟩)
              · -- the completion's digit at (rp,cp) is one of the
                -- candidates; it lands on the new branch head or on a
                -- sibling of the new entry
                have hv9 := hg.1.1 rp hrpgrid.1 cp hrpgrid.2
                have hcons := completion_digit_consistent C s st hInv g hg
                  hagr' rp cp hrpgrid hfr'
                have hvL := (mem_candList st rp cp (g rp cp)).mpr
                  ⟨hv9.1, hv9.2, hcons⟩
                obtain ⟨idx, hidx, hval⟩ := List.mem_iff_getElem.mp hvL
                have hidx' : idx < mp := by omega
                rcases Nat.lt_or_ge (idx + 1) mp with hcase | hcase
                · -- sibling of the new entry
                  right
                  refine ⟨st.istar + 1, ?_, ?_, hg, ?_, idx + 1,
                    by omega, ?_, ?_⟩
                  · rw [pushState_Csize]
                    have := hInv.csize_le
                    omega
                  · rw [pushState_istar]
                  · exact (pushState_agrees st rp cp mp _ st.istar
                      (le_refl _) g).mpr hagr'
                  · rw [pushState_m, upd1_same]
                    omega
                  · rw [pushState_r, pushState_c, upd1_same, upd1_same,
                      hrow (idx + 1) (by omega) (by omega)]
                    have hred : idx + 1 - 1 = idx := rfl
                    rw [hred, List.getD_eq_getElem _ _ hidx, hval]
                · -- the new branch head
                  have hmpidx : idx + 1 = mp := by omega
                  left
                  refine ⟨rfl, hg, ?_⟩
                  intro i' h1 h2
                  rw [pushState_istar] at h2
                  by_cases hi' : i' = st.istar + 1
                  · subst hi'
                    rw [pushState_r, pushState_c, pushState_m, pushState_n,
                      upd1_same, upd1_same, upd1_same, updRow_same]
                    have hfg := fillRow_get (st.n (st.istar + 1))
                      ((List.range' 1 9).filter fun v =>
                        ConsistentF st rp cp v st.istar) mp hpos (by omega)
                    rw [hfg, ← hmpidx]
                    have hred : idx + 1 - 1 = idx := rfl
                    rw [hred, List.getD_eq_getElem _ _ hidx, hval]
                  · have hi'old : i' ≤ st.istar := by omega
                    rw [pushState_r, pushState_c, pushState_m, pushState_n,
                      upd1_other st.r _ _ _ hi', upd1_other st.c _ _ _ hi',
                      upd1_other st.m _ _ _ hi', updRow_other st.n _ _ _ hi']
                    exact hagr' i' h1 hi'old
              · right
                have hiold : i ≤ st.istar := hi2
                refine ⟨i, ?_, ?_, hg, ?_, j, hj1, ?_, ?_⟩
                · rw [pushState_Csize]
                  exact hi1
                · rw [pushState_istar]
                  omega
                · exact (pushState_agrees st rp cp mp _ (i - 1)
                    (by omega) g).mpr hagr'
                · rw [pushState_m, upd1_other st.m _ _ _ (by omega)]
                  exact hj2
                · rw [pushState_r, pushState_c, pushState_n,
                    upd1_other st.r _ _ _ (by omega),
                    upd1_other st.c _ _ _ (by omega),
                    updRow_other st.n _ _ _ (by omega)]
                  exact hd

/-- Running the search loop preserves the invariant and the to-do set; it
stops either on a full trail (after `Advance()`) or back at the clue trail
(after `Retreat()`). -/
theorem run_correct (C s : ℕ → ℕ → ℕ) : ∀ (fuel status : ℕ)
    (st st' : MState), SInv C s st → (status = 1 ∨ status = 2) →
    runSearch fuel status st = some st' →
    SInv C s st' ∧ st'.Csize = st.Csize ∧
      ((st'.istar = 81 ∧
          ∀ g, TDmem C s 1 st' g ↔ TDmem C s status st g) ∨
       (st'.istar = st'.Csize ∧
          ∀ g, TDmem C s 2 st' g ↔ TDmem C s status st g)) := by
  intro fuel
  induction fuel with
  | zero =>
      intro status st st' _ _ hrun
      have hnone : (none : Option MState) = some st' := hrun
      exact Option.noConfusion hnone
  | succ f ih =>
      intro status st st' hInv hs hrun
      rw [runSearch_succ] at hrun
      rcases hs with h1 | h2
      · subst h1
        rw [if_neg (by omega), if_pos rfl] at hrun
        rcases advance_preserves C s st hInv with ⟨h81, hA⟩ |
          ⟨hInv', hCs, hst, hTD⟩
        · rw [hA] at hrun
          dsimp only at hrun
          cases f with
          | zero =>
              have hnone : (none : Option MState) = some st' := hrun
              exact Option.noConfusion hnone
          | succ f' =>
              rw [runSearch_succ, if_pos rfl] at hrun
              have hst' : st = st' := Option.some_injective _ hrun
              subst hst'
              exact ⟨hInv, rfl, Or.inl ⟨h81, fun g => Iff.rfl⟩⟩
        · obtain ⟨hI, hC, hdisj⟩ := ih (AdvanceF st).2 (AdvanceF st).1 st'
            hInv' hst hrun
          refine ⟨hI, by rw [hC, hCs], ?_⟩
          rcases hdisj with ⟨ha, hb⟩ | ⟨ha, hb⟩
          · exact Or.inl ⟨ha, fun g => (hb g).trans (hTD g)⟩
          · exact Or.inr ⟨ha, fun g => (hb g).trans (hTD g)⟩
      · subst h2
        rw [if_neg (by omega), if_neg (by omega)] at hrun
        rcases retreat_preserves C s st hInv with ⟨hstop, hR⟩ |
          ⟨hInv', hCs, hst, hTD⟩
        · rw [hR] at hrun
          dsimp only at hrun
          cases f with
          | zero =>
              have hnone : (none : Option MState) = some st' := hrun
              exact Option.noConfusion hnone
          | succ f' =>
              rw [runSearch_succ, if_pos rfl] at hrun
              have hst' : st = st' := Option.some_injective _ hrun
              subst hst'
              exact ⟨hInv, rfl, Or.inr ⟨hstop, fun g => Iff.rfl⟩⟩
        · obtain ⟨hI, hC, hdisj⟩ := ih (RetreatF st).2 (RetreatF st).1 st'
            hInv' hst hrun
          refine ⟨hI, by rw [hC, hCs], ?_⟩
          rcases hdisj with ⟨ha, hb⟩ | ⟨ha, hb⟩
          · exact Or.inl ⟨ha, fun g => (hb g).trans (hTD g)⟩
          · exact Or.inr ⟨ha, fun g => (hb g).trans (hTD g)⟩

/-- The digit the trail currently assigns to cell `(x, y)`. -/
def trailDigit (st : MState) (x y : ℕ) : ℕ :=
  match (List.range' 1 st.istar).find?
      (fun i => st.r i == x && st.c i == y) with
  | some i => st.n i (st.m i)
  | none => 0

/-- The full grid read off a complete trail (zero off the grid). -/
def trailGrid (st : MState) : ℕ → ℕ → ℕ := fun x y =>
  if inGrid x y then trailDigit st x y else 0

theorem trailDigit_eq (C s : ℕ → ℕ → ℕ) (st : MState) (hInv : SInv C s st)
    (i x y : ℕ) (h1 : 1 ≤ i) (h2 : i ≤ st.istar) (hx : st.r i = x)
    (hy : st.c i = y) : trailDigit st x y = st.n i (st.m i) := by
  unfold trailDigit
  cases hfind : (List.range' 1 st.istar).find?
      (fun j => st.r j == x && st.c j == y) with
  | none =>
      exfalso
      have hnone := List.find?_eq_none.mp hfind i
        (by rw [List.mem_range'_1]; omega)
      apply hnone
      simp [hx, hy]
  | some a =>
      have hmem := List.mem_of_find?_eq_some hfind
      have hpred := List.find?_some hfind
      rw [List.mem_range'_1] at hmem
      simp only [Bool.and_eq_true, beq_iff_eq] at hpred
      have hai : a = i := by
        by_contra hne
        rcases Nat.lt_or_ge a i with hlt | hge
        · exact hInv.distinct a i (by omega) hlt h2
            ⟨hpred.1.trans hx.symm, hpred.2.trans hy.symm⟩
        · have hlt : i < a := by omega
          exact hInv.distinct i a h1 hlt (by omega)
            ⟨hx.trans hpred.1.symm, hy.trans hpred.2.symm⟩
      subst hai
      rfl

/-- The current digit of every trail entry is an in-range digit. -/
theorem entry_digit_range (C s : ℕ → ℕ → ℕ) (st : MState)
    (hInv : SInv C s st) (hs : ValidGrid s) (i : ℕ) (h1 : 1 ≤ i)
    (h2 : i ≤ st.istar) :
    1 ≤ st.n i (st.m i) ∧ st.n i (st.m i) ≤ 9 := by
  by_cases hc : i ≤ st.Csize
  · obtain ⟨hm, hn, _⟩ := hInv.clue_entry i h1 hc
    rw [hm, hn]
    have hcell := hInv.cell_mem i h1 h2
    exact hs.1 (st.r i) hcell.1 (st.c i) hcell.2
  · exact hInv.cand_range i (st.m i) (by omega) h2
      (hInv.m_pos i (by omega) h2) (le_refl _)

/-- Two trail entries sharing a row, column or block carry different
digits. -/
theorem entries_no_conflict (C s : ℕ → ℕ → ℕ) (st : MState)
    (hInv : SInv C s st) (hs : ValidGrid s) (i i' : ℕ) (h1 : 1 ≤ i)
    (hlt : i < i') (h2 : i' ≤ st.istar)
    (hshare : st.r i = st.r i' ∨ st.c i = st.c i' ∨
      blockOf (st.r i) (st.c i) = blockOf (st.r i') (st.c i')) :
    st.n i (st.m i) ≠ st.n i' (st.m i') := by
  by_cases hc : i' ≤ st.Csize
  · obtain ⟨hm, hn, _⟩ := hInv.clue_entry i h1 (by omega)
    obtain ⟨hm', hn', _⟩ := hInv.clue_entry i' (by omega) hc
    rw [hm, hn, hm', hn']
    have hcell := hInv.cell_mem i h1 (by omega)
    have hcell' := hInv.cell_mem i' (by omega) h2
    exact hs.2 (st.r i) hcell.1 (st.c i) hcell.2 (st.r i') hcell'.1
      (st.c i') hcell'.2 (hInv.distinct i i' h1 hlt h2) hshare
  · have hcons := hInv.cand_consistent i' (st.m i') (by omega) h2
      (hInv.m_pos i' (by omega) h2) (le_refl _)
    have := (consistentF_iff st (st.r i') (st.c i') (st.n i' (st.m i'))
      (i' - 1)).mp hcons i h1 (by omega)
    intro heq
    exact this ⟨heq.symm, hshare⟩

/-- A complete consistent trail determines the unique completion extending
the current branch. -/
theorem trailGrid_spec (C s : ℕ → ℕ → ℕ) (st : MState)
    (hInv : SInv C s st) (hs : ValidGrid s) (h81 : st.istar = 81) :
    (IsCompletion C s (trailGrid st) ∧
      Agrees st st.istar (trailGrid st)) ∧
    ∀ g, IsCompletion C s g → Agrees st st.istar g →
      g = trailGrid st := by
  have hagree : Agrees st st.istar (trailGrid st) := by
    intro i h1 h2
    have hcell := hInv.cell_mem i h1 h2
    unfold trailGrid
    rw [if_pos ⟨hcell.1, hcell.2⟩]
    exact trailDigit_eq C s st hInv i _ _ h1 h2 rfl rfl
  refine ⟨⟨⟨?_, ?_, ?_⟩, hagree⟩, ?_⟩
  · -- digits in range
    refine ⟨?_, ?_⟩
    · intro x hx y hy
      obtain ⟨i, h1, h2, hri, hci⟩ := trail_covers C s st hInv h81 x y
        ⟨hx, hy⟩
      unfold trailGrid
      rw [if_pos ⟨hx, hy⟩, trailDigit_eq C s st hInv i x y h1 h2 hri hci]
      exact entry_digit_range C s st hInv hs i h1 h2
    · intro x hx y hy x' hx' y' hy' hne hshare
      obtain ⟨i, h1, h2, hri, hci⟩ := trail_covers C s st hInv h81 x y
        ⟨hx, hy⟩
      obtain ⟨i', h1', h2', hri', hci'⟩ := trail_covers C s st hInv h81
        x' y' ⟨hx', hy'⟩
      have hii : i ≠ i' := by
        intro heq
        subst heq
        exact hne ⟨hri.symm.trans hri', hci.symm.trans hci'⟩
      unfold trailGrid
      rw [if_pos ⟨hx, hy⟩, if_pos ⟨hx', hy'⟩,
        trailDigit_eq C s st hInv i x y h1 h2 hri hci,
        trailDigit_eq C s st hInv i' x' y' h1' h2' hri' hci']
      rcases Nat.lt_or_ge i i' with hlt | hge
      · refine entries_no_conflict C s st hInv hs i i' h1 hlt h2' ?_
        rw [hri, hci, hri', hci']
        exact hshare
      · have hlt : i' < i := by omega
        have hne' := entries_no_conflict C s st hInv hs i' i h1' hlt h2 (by
          rw [hri, hci, hri', hci']
          rcases hshare with h | h | h
          · exact Or.inl h.symm
          · exact Or.inr (Or.inl h.symm)
          · exact Or.inr (Or.inr h.symm))
        exact hne'.symm
  · -- clue agreement
    intro x hx y hy hC
    obtain ⟨i, h1, h2, hri, hci⟩ := hInv.clue_cover x y ⟨hx, hy⟩ hC
    have h2' : i ≤ st.istar := by
      have := hInv.csize_le
      omega
    obtain ⟨hm, hn, _⟩ := hInv.clue_entry i h1 h2
    unfold trailGrid
    rw [if_pos ⟨hx, hy⟩,
      trailDigit_eq C s st hInv i x y h1 h2' hri hci, hm, hn, hri, hci]
  · -- zero off the grid
    intro x y hxy
    unfold trailGrid
    rw [if_neg hxy]
  · -- uniqueness of the extension
    intro g hg hagr
    funext x y
    by_cases hxy : inGrid x y
    · obtain ⟨i, h1, h2, hri, hci⟩ := trail_covers C s st hInv h81 x y hxy
      have hgi := hagr i h1 h2
      rw [hri, hci] at hgi
      unfold trailGrid
      rw [if_pos hxy, trailDigit_eq C s st hInv i x y h1 h2 hri hci]
      exact hgi
    · unfold trailGrid
      rw [if_neg hxy]
      exact hg.2.2 x y hxy

theorem length_filter_lt_of_mem {α : Type} (p : α → Bool) :
    ∀ (l : List α) (a : α), a ∈ l → p a = false →
    (l.filter p).length < l.length := by
  intro l
  induction l with
  | nil =>
      intro a ha _
      exact absurd ha (List.not_mem_nil a)
  | cons b t ih =>
      intro a ha hpa
      rw [List.length_cons]
      rcases List.mem_cons.mp ha with h | h
      · subst h
        rw [List.filter_cons, hpa]
        simp only [Bool.false_eq_true, if_false]
        have := List.length_filter_le p t
        omega
      · cases hpb : p b
        · rw [List.filter_cons, hpb]
          simp only [Bool.false_eq_true, if_false]
          have := ih a h hpa
          omega
        · rw [List.filter_cons, hpb, if_pos rfl, List.length_cons]
          have := ih a h hpa
          omega

/-- Soundness of the uniqueness oracle: when the embedded `Unique()` answers
1 on a clue set that leaves at least one cell free, the clue set has exactly
one completion. -/
theorem unique_sound (C s : ℕ → ℕ → ℕ) (hs : ValidGrid s)
    (hfree : ∃ x y, inGrid x y ∧ C x y = 0)
    (hU : UniqueF C s = URes.ans true) :
    ∃! g, IsCompletion C s g := by
  obtain ⟨hInv0, hCsEq, hCount⟩ := gettingStarted_main C s
  have hCs80 : (GettingStarted C s).Csize ≤ 80 := by
    obtain ⟨fx, fy, hfgrid, hfz⟩ := hfree
    have hfmem : (fx, fy) ∈ cells1to9 :=
      (mem_cells1to9 fx fy).mpr ((inGrid_iff fx fy).mp hfgrid)
    have hlt := length_filter_lt_of_mem
      (fun p => decide (C p.1 p.2 ≠ 0)) cells1to9 (fx, fy) hfmem
      (by simp [hfz])
    have hlen : cells1to9.length = 81 := by decide
    rw [hCsEq, hCount]
    omega
  unfold UniqueF at hU
  cases hrun1 : runSearch BIGFUEL 1 (GettingStarted C s) with
  | none =>
      simp only [hrun1] at hU
      exact URes.noConfusion hU
  | some st1 =>
      simp only [hrun1] at hU
      by_cases h81 : st1.istar ≠ 81
      · rw [if_pos h81] at hU
        exact URes.noConfusion hU
      · rw [if_neg h81] at hU
        have h81' : st1.istar = 81 := not_not.mp h81
        cases hrun2 : runSearch BIGFUEL 2 st1 with
        | none =>
            rw [hrun2] at hU
            exact URes.noConfusion hU
        | some st2 =>
            rw [hrun2] at hU
            have hdec : decide (st2.istar ≠ 81) = true := by
              injection hU
            have hne81 : st2.istar ≠ 81 := of_decide_eq_true hdec
            obtain ⟨hInv1, hCs1, hd1⟩ := run_correct C s BIGFUEL 1
              (GettingStarted C s) st1 hInv0 (Or.inl rfl) hrun1
            have hTD1 : ∀ g, TDmem C s 1 st1 g ↔
                TDmem C s 1 (GettingStarted C s) g := by
              rcases hd1 with ⟨ha, hb⟩ | ⟨ha, hb⟩
              · exact hb
              · exfalso
                rw [h81', hCs1] at ha
                omega
            obtain ⟨hInv2, hCs2, hd2⟩ := run_correct C s BIGFUEL 2 st1 st2
              hInv1 (Or.inr rfl) hrun2
            have hTD2 : ∀ g, ¬TDmem C s 2 st1 g := by
              rcases hd2 with ⟨ha, hb⟩ | ⟨ha, hb⟩
              · exact absurd ha hne81
              · intro g hg2
                rcases (hb g).mpr hg2 with ⟨h21, _⟩ |
                  ⟨i, hi1, hi2, _, _, _⟩
                · omega
                · omega
            obtain ⟨⟨hg1comp, hg1agr⟩, hg1uniq⟩ :=
              trailGrid_spec C s st1 hInv1 hs h81'
            have hinit := td_init C s (GettingStarted C s) hInv0 hCsEq
            refine ⟨trailGrid st1, hg1comp, ?_⟩
            intro g hg
            have hgTD : TDmem C s 1 st1 g :=
              (hTD1 g).mpr ((hinit g).mpr hg)
            rcases hgTD with ⟨_, hgc, hgagr⟩ | hsib
            · exact hg1uniq g hgc hgagr
            · exact absurd (Or.inr hsib) (hTD2 g)

theorem flip_snd (C : ℕ → ℕ → ℕ) (x0 y0 : ℕ) :
    (Flip C x0 y0).2 =
      (if (Flip C x0 y0).1 x0 y0 = 1 then 1 else -1) *
      (if (x0 == 5 && y0 == 5) then 1 else 2) := rfl

theorem flip_off (C : ℕ → ℕ → ℕ) (x0 y0 a b : ℕ)
    (hab : ¬(a = x0 ∧ b = y0)) (hab2 : ¬(a = 10 - x0 ∧ b = 10 - y0)) :
    (Flip C x0 y0).1 a b = C a b := by
  by_cases hcen : x0 = 5 ∧ y0 = 5
  · obtain ⟨h1, h2⟩ := hcen
    subst h1; subst h2
    rw [flip_center_eq, flipOnce_other _ _ _ _ _ hab]
  · rw [flip_grid_eq C x0 y0 hcen]
    simp only [if_neg hab, if_neg hab2]

/-- Flipping the same site twice restores the clue grid (clue flags are
0/1-valued). -/
theorem flip_involution (C : ℕ → ℕ → ℕ) (x0 y0 : ℕ)
    (h01 : ∀ x y, C x y ≤ 1) :
    (Flip (Flip C x0 y0).1 x0 y0).1 = C := by
  funext a b
  by_cases hab : a = x0 ∧ b = y0
  · obtain ⟨h1, h2⟩ := hab
    subst h1; subst h2
    rw [flip_toggle_main, flip_toggle_main]
    have := h01 a b
    omega
  · by_cases hab2 : a = 10 - x0 ∧ b = 10 - y0
    · obtain ⟨h1, h2⟩ := hab2
      subst h1; subst h2
      by_cases hcen : x0 = 5 ∧ y0 = 5
      · obtain ⟨h5, h6⟩ := hcen
        exact absurd ⟨by omega, by omega⟩ hab
      · rw [flip_toggle_reflection _ _ _ hcen,
          flip_toggle_reflection _ _ _ hcen]
        have := h01 (10 - x0) (10 - y0)
        omega
    · rw [flip_off _ _ _ _ _ hab hab2, flip_off _ _ _ _ _ hab hab2]

/-- A clue-decreasing flip leaves the flipped site itself free. -/
theorem flip_dec_free (C : ℕ → ℕ → ℕ) (x0 y0 : ℕ)
    (h01 : ∀ x y, C x y ≤ 1) (hd : (Flip C x0 y0).2 < 0) :
    (Flip C x0 y0).1 x0 y0 = 0 := by
  rw [flip_snd] at hd
  by_cases h1 : (Flip C x0 y0).1 x0 y0 = 1
  · rw [if_pos h1] at hd
    by_cases hb : (x0 == 5 && y0 == 5) = true
    · rw [if_pos hb] at hd
      omega
    · rw [if_neg hb] at hd
      omega
  · rw [flip_toggle_main] at h1 ⊢
    have := h01 x0 y0
    omega

/-- One iteration of the clue-reduction loop of `Metropolis2`, after the
site `(x, y)` and the uniform variate `u` have been drawn: flip the site
(and its reflection), then keep the flip — updating the clue count `E` — if
it reduces clues and `Unique()` confirms uniqueness, or, for a
non-reducing flip, when `u ≤ p[DeltaClues]`; otherwise flip back.  `none`
stands for the `Exit()` path inside `Unique()`. -/
def Met2Step (s C : ℕ → ℕ → ℕ) (E : ℤ) (x y : ℕ) (u : ℚ) (p : ℤ → ℚ) :
    Option ((ℕ → ℕ → ℕ) × ℤ) :=
  if (Flip C x y).2 < 0 then
    match UniqueF (Flip C x y).1 s with
    | URes.ans true => some ((Flip C x y).1, E + (Flip C x y).2)
    | URes.ans false => some ((Flip (Flip C x y).1 x y).1, E)
    | _ => none
  else
    if u ≤ p (Flip C x y).2 then
      some ((Flip C x y).1, E + (Flip C x y).2)
    else some ((Flip (Flip C x y).1 x y).1, E)

end Maker

/-! ## Claim theorems (first group) -/

/-- C1: in every Metropolis step, a proposed move with `deltaE ≤ 0` is always
accepted; a move with `deltaE > 0` is accepted exactly when the temperature is
positive and the single uniform variate drawn is `≤` the acceptance-table
value for that delta; and a move with `deltaE > 0` at temperature `0` (or any
non-positive temperature) is always rejected. -/
theorem claim_C1_acceptance (deltaE : ℤ) (T : ℚ) (u : ℚ) (table : ℤ → ℚ) :
    Metro.AcceptTransition deltaE T u table = true ↔
      (deltaE ≤ 0 ∨ (0 < deltaE ∧ 0 < T ∧ u ≤ table deltaE)) := by
  unfold Metro.AcceptTransition
  by_cases h : deltaE ≤ 0
  · simp [h]
  · have hd : 0 < deltaE := by omega
    by_cases hT : 0 < T
    · simp [h, hT, hd]
    · simp [h, hT]

/-- C4: undoing a proposed move restores the configuration exactly:
`ChangeBack()` after the KenKen `Proposal()` swap of sites `I0`/`I1` returns
the grid to its prior state, and in the Two Not Touch solver re-assigning
`col[R][S] = C` on rejection restores the prior configuration, bit for bit. -/
theorem claim_C4_exact_undo (x1 : ℕ → ℕ) (I0 I1 : ℕ)
    (col : ℕ → ℕ → ℕ) (R S newc : ℕ) :
    KenKen.ChangeBack (KenKen.Proposal x1 I0 I1) I0 I1 = x1 ∧
    TwoNotTouch.ChangeBack (TwoNotTouch.Proposal col R S newc) R S (col R S)
      = col :=
  ⟨KenKen.swapSites_involutive x1 I0 I1,
   TwoNotTouch.changeBack_proposal col R S newc⟩

/-- C10: the TSP segment-reversal `Proposal()` keeps exactly the sorted pairs
`(i0, j0)` with `2 ≤ i0 < j0 ≤ K` and `(i0, j0) ≠ (2, K)`: the degenerate
reversal of the whole complement (equivalent to a direction reversal) is the
single excluded pair. -/
theorem claim_C10_tsp_proposal (K i j : ℕ)
    (hi1 : 2 ≤ i) (hi2 : i ≤ K) (hj1 : 2 ≤ j) (hj2 : j ≤ K) :
    TSP.proposalAccept K i j = true ↔
      (2 ≤ (TSP.sortPair i j).1 ∧ (TSP.sortPair i j).1 < (TSP.sortPair i j).2 ∧
       (TSP.sortPair i j).2 ≤ K ∧
       ¬((TSP.sortPair i j).1 = 2 ∧ (TSP.sortPair i j).2 = K)) := by
  unfold TSP.proposalAccept TSP.sortPair
  by_cases h : j < i <;> simp [h] <;> omega

/-- C3: in the Sudoku solver the incrementally computed energy delta
`Conflicts(i0,j0,x0) - Conflicts(i0,j0,x[i0][j0])` equals the fully
recomputed `Energy` of the configuration with cell `(i0,j0)` set to `x0`
minus the fully recomputed `Energy` of the current configuration, for every
non-clue cell `(i0,j0)` and digit `x0` (the clue-weighted conflicts and the
halving of double-counted pairs included). -/
theorem claim_C3_delta_consistency (x clue : ℕ → ℕ → ℕ) (i0 j0 x0 : ℕ)
    (hi : i0 ∈ Finset.Icc 1 9) (hj : j0 ∈ Finset.Icc 1 9)
    (_hclue : clue i0 j0 = 0) :
    (SudokuSolver.Conflicts x clue i0 j0 x0 : ℤ)
      - (SudokuSolver.Conflicts x clue i0 j0 (x i0 j0) : ℤ)
    = (SudokuSolver.Energy (Metro.update2 x i0 j0 x0) clue : ℤ)
      - (SudokuSolver.Energy x clue : ℤ) := by
  have h1 := SudokuSolver.S_delta x clue i0 j0 x0 hi hj
  rw [SudokuSolver.S_eq_two_T, SudokuSolver.S_eq_two_T] at h1
  have h2 := SudokuSolver.energy_eq_T x clue
  have h3 := SudokuSolver.energy_eq_T (Metro.update2 x i0 j0 x0) clue
  omega

/-- Witness for C3 at a concrete input: the all-ones configuration with no
clues, changing cell (1,1) to digit 2. -/
theorem claim_C3_witness :
    ((1 : ℕ) ∈ Finset.Icc (1 : ℕ) 9 ∧ (1 : ℕ) ∈ Finset.Icc (1 : ℕ) 9 ∧
      (fun _ _ => (0 : ℕ)) 1 1 = 0) ∧
    ((SudokuSolver.Conflicts (fun _ _ => 1) (fun _ _ => 0) 1 1 2 : ℤ)
      - (SudokuSolver.Conflicts (fun _ _ => 1) (fun _ _ => 0) 1 1
          ((fun _ _ => (1 : ℕ)) 1 1) : ℤ)
    = (SudokuSolver.Energy (Metro.update2 (fun _ _ => 1) 1 1 2)
          (fun _ _ => 0) : ℤ)
      - (SudokuSolver.Energy (fun _ _ => 1) (fun _ _ => 0) : ℤ)) :=
  ⟨⟨by decide, by decide, rfl⟩,
   claim_C3_delta_consistency (fun _ _ => 1) (fun _ _ => 0) 1 1 2
     (by decide) (by decide) rfl⟩

/-- A reachable Sudoku-solver configuration: cell (1,1) holds 1 and is not a
clue; every other cell holds 5; the clues are at (1,5), (5,1) and (2,2). -/
def cexX : ℕ → ℕ → ℕ := fun r c => if r = 1 ∧ c = 1 then 1 else 5

def cexClue : ℕ → ℕ → ℕ := fun r c =>
  if (r = 1 ∧ c = 5) ∨ (r = 5 ∧ c = 1) ∨ (r = 2 ∧ c = 2) then 1 else 0

/-- C9 counterexample: in the Sudoku solver, proposing digit 5 for the
non-clue cell (1,1) of the configuration above yields `deltaE = 32 > 20`,
so the unguarded read `prob[deltaE]` (performed whenever `deltaE > 0` and
`T > 0`) lies outside the 20-entry precomputed acceptance table: the claim
that every table read occurs inside the precomputed domain is false. -/
theorem claim_C9_counterexample :
    cexClue 1 1 = 0 ∧
    (SudokuSolver.Conflicts cexX cexClue 1 1 5 : ℤ)
      - (SudokuSolver.Conflicts cexX cexClue 1 1 (cexX 1 1) : ℤ) = 32 ∧
    ¬((32 : ℤ) ≤ 20) := by
  have h1 : SudokuSolver.Conflicts cexX cexClue 1 1 5 = 32 := by decide
  have h2 : SudokuSolver.Conflicts cexX cexClue 1 1 (cexX 1 1) = 0 := by decide
  refine ⟨rfl, ?_, by norm_num⟩
  rw [h1, h2]
  norm_num

/-- C9 (amended): the magic-square generator treats `DeltaE ≥ 100` as
acceptance probability 0 and reads its 100-entry table only at indices
`1..99`; the Two Not Touch solver's single-move energy delta is at most 13,
inside its 24-entry table; the Sudoku solver (see the counterexample) is the
exception: it reads its 20-entry table unguarded at deltas that can reach
beyond 20. -/
theorem claim_C9_amended_tables :
    (∀ (P : ℤ → ℚ) (DeltaE : ℤ), 100 ≤ DeltaE →
        MagicSquare.acceptProb P DeltaE = 0) ∧
    (∀ (P Q : ℤ → ℚ) (DeltaE : ℤ), 0 < DeltaE →
        (∀ k : ℤ, 1 ≤ k → k < 100 → P k = Q k) →
        MagicSquare.acceptProb P DeltaE = MagicSquare.acceptProb Q DeltaE) ∧
    (∀ (col reg : ℕ → ℕ → ℕ) (R S newc : ℕ),
        R ∈ Finset.Icc 1 10 → S ∈ Finset.Icc 1 2 →
        TwoNotTouch.Energy (Metro.update2 col R S newc) reg
          - TwoNotTouch.Energy col reg ≤ 24) :=
  ⟨MagicSquare.acceptProb_large,
   fun P Q D hD h => MagicSquare.acceptProb_reads_in_domain P Q D hD h,
   fun col reg R S newc hR hS => le_trans
     (TwoNotTouch.energy_delta_le col reg R S newc hR hS) (by norm_num)⟩

/-- Witness for C9 (amended) at concrete inputs. -/
theorem claim_C9_witness :
    MagicSquare.acceptProb (fun _ => 1) 100 = 0 ∧
    MagicSquare.acceptProb (fun k => (k : ℚ)) 5
      = MagicSquare.acceptProb (fun k => if k < 100 then (k : ℚ) else 0) 5 ∧
    TwoNotTouch.Energy (Metro.update2 (fun _ _ => 1) 5 1 3) (fun _ _ => 1)
      - TwoNotTouch.Energy (fun _ _ => 1) (fun _ _ => 1) ≤ 24 :=
  ⟨claim_C9_amended_tables.1 (fun _ => 1) 100 (by norm_num),
   claim_C9_amended_tables.2.1 (fun k => (k : ℚ))
     (fun k => if k < 100 then (k : ℚ) else 0) 5 (by norm_num)
     (fun k _ hk2 => by simp only []; rw [if_pos hk2]),
   claim_C9_amended_tables.2.2 (fun _ _ => 1) (fun _ _ => 1) 5 1 3
     (by decide) (by decide)⟩

/-- C8: the Advance/Retreat backtracking search performed by `Unique()`
always halts: for every clue set and reference solution, both search phases
finish within the fuel bound given by the well-founded measure `mu`
(trail length bounded by the 81 sites, finite digit domains), so the
fuel-indexed runner never reports fuel exhaustion. -/
theorem claim_C8_termination (C s : ℕ → ℕ → ℕ) :
    Maker.UniqueF C s ≠ Maker.URes.fuelOut := by
  obtain ⟨hWF0, hm0⟩ := Maker.GettingStarted_WF C s
  have hfuel0 : Maker.mu (Maker.GettingStarted C s) 1 + 2 ≤ Maker.BIGFUEL := by
    unfold Maker.mu
    exact Maker.muVal_le_bound _ _ 1 hWF0.2.1
      (fun i h1 h2 => by rw [hm0 i h1 h2]; norm_num)
  obtain ⟨st1, h1, hWF1⟩ := Maker.runSearch_succeeds Maker.BIGFUEL 1
    (Maker.GettingStarted C s) hWF0 (Or.inr (Or.inl rfl)) hfuel0
  have hfuel1 : Maker.mu st1 2 + 2 ≤ Maker.BIGFUEL := by
    unfold Maker.mu
    exact Maker.muVal_le_bound _ _ 2 hWF1.2.1 hWF1.2.2
  obtain ⟨st2, h2, hWF2⟩ := Maker.runSearch_succeeds Maker.BIGFUEL 2 st1 hWF1
    (Or.inr (Or.inr rfl)) hfuel1
  by_cases hi : st1.istar ≠ 81
  · simp [Maker.UniqueF, h1, hi]
  · simp [Maker.UniqueF, h1, hi, h2]

theorem refSol_unique_completion :
    ∃! g : ℕ → ℕ → ℕ, Maker.IsCompletion Maker.fullClues Maker.refSol g := by
  refine ⟨Maker.refSol, ⟨by decide, ?_, ?_⟩, ?_⟩
  · intro x _ y _ _; rfl
  · intro x y h; unfold Maker.refSol; rw [if_neg h]
  · intro g hg
    funext x y
    by_cases hxy : Maker.inGrid x y
    · exact hg.2.1 x hxy.1 y hxy.2 one_ne_zero
    · rw [hg.2.2 x y hxy]; unfold Maker.refSol; rw [if_neg hxy]

/-- C2: `Unique()` is claimed to return 1 iff the clue set's fixed values
have exactly one completion.  On the all-clues set (whose completion is
exactly the reference solution) it returns 0 instead: the second-solution
phase starts with a forced `Retreat()`, which immediately hits the
`istar == Csize` stop while `istar` is still 81, and the final
`istar == 81` test then misreports a second solution.  This contradicts the
function's own documentation ("1 = yes, 0 = no") and the specification's
trivial-case property (a clue set equal to the full solved grid is always
unique). -/
theorem claim_C2_full_clue_divergence :
    Maker.UniqueF Maker.fullClues Maker.refSol = Maker.URes.ans false ∧
    (∃! g : ℕ → ℕ → ℕ, Maker.IsCompletion Maker.fullClues Maker.refSol g) :=
  ⟨by decide, refSol_unique_completion⟩

/-- C6: starting from the all-clues configuration of `Metropolis2`, the clue
grid stays symmetric under 180-degree rotation at all times between flips:
`Flip(x0,y0)` toggles both `C[x0][y0]` and its point reflection
`C[10-x0][10-y0]` (toggling only the single center cell when
`(x0,y0) = (5,5)`), so `C[x][y] = C[10-x][10-y]` holds for all cells after
every flip sequence. -/
theorem claim_C6_clue_symmetry :
    (∀ (C : ℕ → ℕ → ℕ) (x0 y0 : ℕ),
        (Maker.Flip C x0 y0).1 x0 y0 = 1 - C x0 y0) ∧
    (∀ (C : ℕ → ℕ → ℕ) (x0 y0 : ℕ), ¬(x0 = 5 ∧ y0 = 5) →
        (Maker.Flip C x0 y0).1 (10 - x0) (10 - y0)
          = 1 - C (10 - x0) (10 - y0)) ∧
    (∀ C : ℕ → ℕ → ℕ, (Maker.Flip C 5 5).1 = Maker.flipOnce C 5 5) ∧
    (∀ ms : List (ℕ × ℕ),
        (∀ p ∈ ms, p.1 ∈ Finset.Icc 1 9 ∧ p.2 ∈ Finset.Icc 1 9) →
        Maker.SymmetricClues (Maker.FlipSeq Maker.allClues ms)) :=
  ⟨Maker.flip_toggle_main, Maker.flip_toggle_reflection, Maker.flip_center_eq,
   fun ms hms =>
     Maker.flipSeq_symmetric Maker.allClues ms Maker.allClues_symmetric hms⟩

/-- Witness for C6 at a concrete flip list: two flips, at (1,2) and (5,5). -/
theorem claim_C6_witness :
    (∀ p ∈ [((1 : ℕ), (2 : ℕ)), (5, 5)],
        p.1 ∈ Finset.Icc 1 9 ∧ p.2 ∈ Finset.Icc 1 9) ∧
    Maker.SymmetricClues (Maker.FlipSeq Maker.allClues [(1, 2), (5, 5)]) :=
  ⟨by decide, claim_C6_clue_symmetry.2.2.2 [(1, 2), (5, 5)] (by decide)⟩

/-- Witness for C10 at a concrete input: `K = 183`, draws `i = 5`, `j = 2`. -/
theorem claim_C10_witness :
    (2 ≤ 5 ∧ 5 ≤ 183 ∧ 2 ≤ 2 ∧ 2 ≤ 183) ∧
      (TSP.proposalAccept 183 5 2 = true ↔
        (2 ≤ (TSP.sortPair 5 2).1 ∧ (TSP.sortPair 5 2).1 < (TSP.sortPair 5 2).2 ∧
         (TSP.sortPair 5 2).2 ≤ 183 ∧
         ¬((TSP.sortPair 5 2).1 = 2 ∧ (TSP.sortPair 5 2).2 = 183))) :=
  ⟨by decide, claim_C10_tsp_proposal 183 5 2 (by decide) (by decide)
      (by decide) (by decide)⟩
/-- C7 counterexample: on the empty clue set (empty trail, every cell free),
the first `Advance()` picks cell (1,1) with the full candidate list
`[1,…,9]`; the first candidate in the list is 1, but the cell's current
value `n[istar][m[istar]]` is 9 — the LAST candidate — so the claim's
"selecting the first candidate in the list as the cell's current value"
does not match the code. -/
theorem claim_C7_counterexample :
    (Maker.AdvanceF Maker.advDemo).2 = 1 ∧
    (Maker.AdvanceF Maker.advDemo).1.r 1 = 1 ∧
    (Maker.AdvanceF Maker.advDemo).1.c 1 = 1 ∧
    (Maker.AdvanceF Maker.advDemo).1.m 1 = 9 ∧
    ((List.range' 1 9).filter fun v =>
        Maker.ConsistentF Maker.advDemo 1 1 v Maker.advDemo.istar)
      = [1, 2, 3, 4, 5, 6, 7, 8, 9] ∧
    (Maker.AdvanceF Maker.advDemo).1.n 1
        ((Maker.AdvanceF Maker.advDemo).1.m 1) = 9 ∧
    ¬(Maker.AdvanceF Maker.advDemo).1.n 1
        ((Maker.AdvanceF Maker.advDemo).1.m 1) =
      ((List.range' 1 9).filter fun v =>
          Maker.ConsistentF Maker.advDemo 1 1 v Maker.advDemo.istar).getD 0 0 := by
  decide

/-- C7 (amended): away from a full trail, and provided some cell is free,
`Advance()` signals Retreat exactly when some free cell has zero consistent
digits; otherwise it extends the trail with a free cell of minimum positive
consistent-digit count, storing the ascending list of consistent candidates
in the cell's candidate row and selecting the LAST candidate of that list
(the largest consistent digit, at position `m[istar]` = the count) as the
cell's current value — not the first candidate. -/
theorem claim_C7_advance_characterization (st : Maker.MState)
    (h81 : st.istar ≠ 81)
    (hfree : ∃ x y, 1 ≤ x ∧ x ≤ 9 ∧ 1 ≤ y ∧ y ≤ 9 ∧ st.Gtilde x y = 0) :
    ((Maker.AdvanceF st).2 = 2 ↔
      ∃ x y, 1 ≤ x ∧ x ≤ 9 ∧ 1 ≤ y ∧ y ≤ 9 ∧ st.Gtilde x y = 0 ∧
        Maker.countConsistent st x y = 0) ∧
    ((Maker.AdvanceF st).2 = 2 → (Maker.AdvanceF st).1 = st) ∧
    ((Maker.AdvanceF st).2 ≠ 2 →
      (Maker.AdvanceF st).2 = 1 ∧
      ∃ rp cp,
        (1 ≤ rp ∧ rp ≤ 9 ∧ 1 ≤ cp ∧ cp ≤ 9) ∧
        st.Gtilde rp cp = 0 ∧
        0 < Maker.countConsistent st rp cp ∧
        (∀ x y, 1 ≤ x → x ≤ 9 → 1 ≤ y → y ≤ 9 → st.Gtilde x y = 0 →
          Maker.countConsistent st rp cp ≤ Maker.countConsistent st x y) ∧
        (Maker.AdvanceF st).1.istar = st.istar + 1 ∧
        (Maker.AdvanceF st).1.r (st.istar + 1) = rp ∧
        (Maker.AdvanceF st).1.c (st.istar + 1) = cp ∧
        (Maker.AdvanceF st).1.m (st.istar + 1) = Maker.countConsistent st rp cp ∧
        (∀ j, 1 ≤ j → j ≤ Maker.countConsistent st rp cp →
          (Maker.AdvanceF st).1.n (st.istar + 1) j =
            ((List.range' 1 9).filter fun v =>
                Maker.ConsistentF st rp cp v st.istar).getD (j - 1) 0) ∧
        (Maker.AdvanceF st).1.n (st.istar + 1)
            ((Maker.AdvanceF st).1.m (st.istar + 1)) =
          ((List.range' 1 9).filter fun v =>
              Maker.ConsistentF st rp cp v st.istar).getD
            (Maker.countConsistent st rp cp - 1) 0) := by
  unfold Maker.AdvanceF
  rw [if_neg h81]
  cases hscan : Maker.scanCells st Maker.cells1to9 10 0 0 with
  | none =>
      simp only [hscan]
      obtain ⟨q, hqL, hqfree, hqcnt⟩ :=
        (Maker.scan_none_iff st Maker.cells1to9 10 0 0 (by omega)).mp hscan
      obtain ⟨qx, qy⟩ := q
      have hq := (Maker.mem_cells1to9 qx qy).mp hqL
      refine ⟨⟨fun _ => ⟨qx, qy, hq.1, hq.2.1, hq.2.2.1, hq.2.2.2,
        hqfree, hqcnt⟩, fun _ => trivial⟩, fun _ => trivial,
        fun hne => absurd rfl hne⟩
  | some res =>
      obtain ⟨mp, rp, cp⟩ := res
      simp only [hscan]
      obtain ⟨hmin, hle10, hres⟩ :=
        Maker.scan_some_spec st Maker.cells1to9 10 0 0 (mp, rp, cp) hscan
      have hpos : 0 < mp :=
        Maker.scan_some_pos st Maker.cells1to9 10 0 0 (mp, rp, cp)
          (by omega) hscan
      obtain ⟨qx, qy, hq1, hq2, hq3, hq4, hqfree⟩ := hfree
      have hqmem : (qx, qy) ∈ Maker.cells1to9 :=
        (Maker.mem_cells1to9 qx qy).mpr ⟨hq1, hq2, hq3, hq4⟩
      have hmp9 : mp ≤ 9 :=
        le_trans (hmin (qx, qy) hqmem hqfree)
          (Maker.countConsistent_le_nine st qx qy)
      rcases hres with h10 | ⟨hin, hfr, hcnt⟩
      · have hmp10 : mp = 10 := congrArg Prod.fst h10
        omega
      · have hin' : (rp, cp) ∈ Maker.cells1to9 := hin
        have hfr' : st.Gtilde rp cp = 0 := hfr
        have hcnt' : Maker.countConsistent st rp cp = mp := hcnt
        have hrange := (Maker.mem_cells1to9 rp cp).mp hin'
        refine ⟨⟨fun h => absurd (h : (1 : ℕ) = 2) (by omega), fun hex => ?_⟩,
          fun h => absurd (h : (1 : ℕ) = 2) (by omega),
          fun _ => ⟨trivial, rp, cp, hrange, hfr', ?_, ?_, trivial,
            ?_, ?_, ?_, ?_, ?_⟩⟩
      -- leftover placeholder goals are discharged below
        · obtain ⟨x, y, hx1, hx2, hy1, hy2, hfz, hcz⟩ := hex
          have hnone : Maker.scanCells st Maker.cells1to9 10 0 0 = none :=
            (Maker.scan_none_iff st Maker.cells1to9 10 0 0 (by omega)).mpr
              ⟨(x, y), (Maker.mem_cells1to9 x y).mpr ⟨hx1, hx2, hy1, hy2⟩,
                hfz, hcz⟩
          rw [hscan] at hnone
          exact Option.noConfusion hnone
        · rw [hcnt']
          exact hpos
        · intro x y hx1 hx2 hy1 hy2 hfxy
          rw [hcnt']
          exact hmin (x, y) ((Maker.mem_cells1to9 x y).mpr
            ⟨hx1, hx2, hy1, hy2⟩) hfxy
        · exact Maker.upd1_same st.r (st.istar + 1) rp
        · exact Maker.upd1_same st.c (st.istar + 1) cp
        · show Maker.upd1 st.m (st.istar + 1) mp (st.istar + 1)
            = Maker.countConsistent st rp cp
          rw [Maker.upd1_same st.m (st.istar + 1) mp, hcnt']
        · intro j hj1 hj2
          show Maker.updRow st.n (st.istar + 1)
              (Maker.fillRow (st.n (st.istar + 1))
                ((List.range' 1 9).filter fun v =>
                  Maker.ConsistentF st rp cp v st.istar)).1 (st.istar + 1) j
            = ((List.range' 1 9).filter fun v =>
                Maker.ConsistentF st rp cp v st.istar).getD (j - 1) 0
          rw [Maker.updRow_same]
          exact Maker.fillRow_get (st.n (st.istar + 1)) _ j hj1 hj2
        · show Maker.updRow st.n (st.istar + 1)
              (Maker.fillRow (st.n (st.istar + 1))
                ((List.range' 1 9).filter fun v =>
                  Maker.ConsistentF st rp cp v st.istar)).1 (st.istar + 1)
              (Maker.upd1 st.m (st.istar + 1) mp (st.istar + 1))
            = ((List.range' 1 9).filter fun v =>
                Maker.ConsistentF st rp cp v st.istar).getD
              (Maker.countConsistent st rp cp - 1) 0
          rw [Maker.upd1_same st.m (st.istar + 1) mp, Maker.updRow_same]
          have hlen : ((List.range' 1 9).filter fun v =>
              Maker.ConsistentF st rp cp v st.istar).length = mp := hcnt'
          have hget := Maker.fillRow_get (st.n (st.istar + 1))
            ((List.range' 1 9).filter fun v =>
              Maker.ConsistentF st rp cp v st.istar)
            mp hpos (by omega)
          rw [hget, hcnt']

/-- Witness for C7 (amended) at the empty-clue-set state. -/
theorem claim_C7_witness :
    ((Maker.AdvanceF Maker.advDemo).2 = 2 ↔
      ∃ x y, 1 ≤ x ∧ x ≤ 9 ∧ 1 ≤ y ∧ y ≤ 9 ∧
        Maker.advDemo.Gtilde x y = 0 ∧
        Maker.countConsistent Maker.advDemo x y = 0) :=
  (claim_C7_advance_characterization Maker.advDemo (by decide)
    ⟨1, 1, by decide⟩).1
/-- C5: in the clue-reduction loop `Metropolis2`, a flip that decreases the
clue count is kept exactly when `Unique()` returns 1 on the flipped clue
set, and is flipped back otherwise — restoring the previous clue grid
bit-for-bit, regardless of the clue-count improvement; consequently, after
every accepted reduction the current clue set still has exactly one
completion (soundness of the uniqueness gate, proved via the search
invariant of the Advance/Retreat backtracking). -/
theorem claim_C5_reduction_gate (C s : ℕ → ℕ → ℕ) (x0 y0 : ℕ) (E : ℤ)
    (u : ℚ) (p : ℤ → ℚ) (hs : Maker.ValidGrid s)
    (h01 : ∀ x y, C x y ≤ 1)
    (hx0 : 1 ≤ x0 ∧ x0 ≤ 9) (hy0 : 1 ≤ y0 ∧ y0 ≤ 9)
    (hd : (Maker.Flip C x0 y0).2 < 0) :
    (Maker.Met2Step s C E x0 y0 u p =
        some ((Maker.Flip C x0 y0).1, E + (Maker.Flip C x0 y0).2) ↔
      Maker.UniqueF (Maker.Flip C x0 y0).1 s = Maker.URes.ans true) ∧
    (Maker.UniqueF (Maker.Flip C x0 y0).1 s = Maker.URes.ans false →
      Maker.Met2Step s C E x0 y0 u p = some (C, E)) ∧
    (Maker.UniqueF (Maker.Flip C x0 y0).1 s = Maker.URes.ans true →
      ∃! g, Maker.IsCompletion (Maker.Flip C x0 y0).1 s g) := by
  have hfreecell : ∃ x y, Maker.inGrid x y ∧
      (Maker.Flip C x0 y0).1 x y = 0 :=
    ⟨x0, y0, (Maker.inGrid_iff x0 y0).mpr ⟨hx0.1, hx0.2, hy0.1, hy0.2⟩,
      Maker.flip_dec_free C x0 y0 h01 hd⟩
  refine ⟨?_, ?_, ?_⟩
  · constructor
    · intro hkeep
      unfold Maker.Met2Step at hkeep
      rw [if_pos hd] at hkeep
      cases hUq : Maker.UniqueF (Maker.Flip C x0 y0).1 s with
      | fuelOut =>
          rw [hUq] at hkeep
          exact Option.noConfusion hkeep
      | problem =>
          rw [hUq] at hkeep
          exact Option.noConfusion hkeep
      | ans b =>
          cases b with
          | true => rfl
          | false =>
              rw [hUq] at hkeep
              have hpair := Option.some_injective _ hkeep
              have hsnd : (E : ℤ) = E + (Maker.Flip C x0 y0).2 :=
                congrArg Prod.snd hpair
              omega
    · intro hUq
      unfold Maker.Met2Step
      rw [if_pos hd, hUq]
  · intro hUq
    unfold Maker.Met2Step
    rw [if_pos hd, hUq, Maker.flip_involution C x0 y0 h01]
  · intro hUq
    exact Maker.unique_sound (Maker.Flip C x0 y0).1 s hs hfreecell hUq

/-- Witness for C5 at a concrete input: the all-clues grid with the center
site (5,5) flipped (a clue-decreasing flip), zero temperature draws. -/
theorem claim_C5_witness :
    (Maker.Met2Step Maker.refSol Maker.allClues 81 5 5 0 (fun _ => 0) =
        some ((Maker.Flip Maker.allClues 5 5).1,
          81 + (Maker.Flip Maker.allClues 5 5).2) ↔
      Maker.UniqueF (Maker.Flip Maker.allClues 5 5).1 Maker.refSol =
        Maker.URes.ans true) :=
  (claim_C5_reduction_gate Maker.allClues Maker.refSol 5 5 81 0 (fun _ => 0)
    (by decide) (fun _ _ => le_refl 1) (by decide) (by decide)
    (by decide)).1
